import Mathlib

/-!
A shallow embedding of `crates/tinymist-query/src/analysis/def_use.rs`:
the cross-file definition-use resolution engine (scanner, import resolver,
symbol table `DefUseInfo`, query API, and serializer).

Modelling conventions:
* `TypstFileId` is modelled as a structure carrying the file's
  project-relative path (the only observable the serializer uses).
* Rust `u64`/`usize` indices (`DefId`) are modelled as `Nat`; the table
  sizes involved never come near `2^64`, so wrap-around is unreachable.
* `indexmap::IndexMap` and `std::collections::HashMap` are modelled as
  association lists with the corresponding insertion semantics
  (`IndexMap::insert_full` keeps the slot and index of an existing key;
  `HashMap::insert` replaces the value of an existing key).
* The mutual recursion between `get_def_use_inner` and
  `DefUseCollector::scan` crosses files, so it is bounded by an explicit
  fuel parameter; every recursive call consumes one unit.  Running out of
  fuel behaves like the abort path (`None`).  The Rust code terminates via
  the request-scoped visited set; the fuel only makes the recursion
  structurally evident to Lean.
* `unreachable!()` on heading nodes is modelled as the abort path; no
  theorem below exercises heading nodes.
-/

namespace DefUse

/-- File identity, carrying the canonical project-relative path that
`unix_slash(vpath().as_rootless_path())` produces in the serializer. -/
structure TypstFileId where
  path : String
deriving DecidableEq, Repr

/-- Byte range `start..stop` into a file's text (Rust `Range<usize>`). -/
structure Rng where
  start : Nat
  stop : Nat
deriving DecidableEq, Repr

/-- Dense 0-based index into the definition table (Rust `DefId(u64)`). -/
abbrev DefId := Nat

/-- `IdentRef`: (name, byte range) identity of one identifier occurrence. -/
structure IdentRef where
  name : String
  range : Rng
deriving DecidableEq, Repr

/-- Rust `{:?}` rendering of a `Range<usize>`: `start..stop`. -/
def rngRepr (r : Rng) : String :=
  toString r.start ++ ".." ++ toString r.stop

/-- `impl fmt::Display for IdentRef`: `name@range`. -/
def identRefRepr (i : IdentRef) : String :=
  i.name ++ "@" ++ rngRepr i.range

/-- The variable kinds dispatched on by the scanner. -/
inductive LexicalVarKind where
  | Label
  | LabelRef
  | Function
  | Variable
  | ValRef
deriving DecidableEq, Repr

/-- Module source of a module-open node: expression (skipped) or path. -/
inductive ModSrc where
  | Expr
  | Path (p : String)
deriving DecidableEq, Repr

/-- The module-related node kinds dispatched on by the scanner. -/
inductive LexicalModKind where
  | PathVar
  | ModuleAlias
  | Ident
  | Alias (target : IdentRef)
  | Module (src : ModSrc)
  | Star
deriving DecidableEq, Repr

/-- Node kind tags of the lexical hierarchy consumed by the scanner. -/
inductive LexicalKind where
  | Heading (level : Nat)
  | Var (k : LexicalVarKind)
  | Mod (k : LexicalModKind)
  | Block
deriving DecidableEq, Repr

/-- `IdentDef`: a definition site's payload (name, kind, byte range). -/
structure IdentDef where
  name : String
  kind : LexicalKind
  range : Rng
deriving DecidableEq, Repr

/-- Payload of one hierarchy node: name, kind tag, byte range. -/
structure LexicalInfo where
  name : String
  kind : LexicalKind
  range : Rng
deriving DecidableEq, Repr

/-- A node of the lexical hierarchy tree (`LexicalHierarchy` in Rust):
payload plus optional children. -/
inductive LexicalHierarchy where
  | node (info : LexicalInfo) (children : Option (List LexicalHierarchy))

/-- Association-list lookup (first match), modelling `HashMap::get`. -/
def alLookup {α β : Type} [DecidableEq α] : List (α × β) → α → Option β
  | [], _ => none
  | (a, b) :: l, k => if a = k then some b else alLookup l k

/-- Association-list insertion replacing the value of an existing key,
modelling `HashMap::insert`. -/
def alInsert {α β : Type} [DecidableEq α] : List (α × β) → α → β → List (α × β)
  | [], k, v => [(k, v)]
  | (a, b) :: l, k, v => if a = k then (k, v) :: l else (a, b) :: alInsert l k v

/-- Index of the slot holding key `k`, modelling `IndexMap::get_index_of`. -/
def imFindIdx {α β : Type} [DecidableEq α] : List (α × β) → α → Option Nat
  | [], _ => none
  | (a, _) :: l, k => if a = k then some 0 else (imFindIdx l k).map (· + 1)

/-- Replace the value stored at slot `i`, keeping the key and the index. -/
def imSetAt {α β : Type} : List (α × β) → Nat → β → List (α × β)
  | [], _, _ => []
  | (a, _) :: l, 0, v => (a, v) :: l
  | p :: l, i+1, v => p :: imSetAt l i v

/-- `IndexMap::insert_full`: an existing key keeps its slot and index and
has its value replaced; a fresh key is appended at index `len`. -/
def imInsertFull {α β : Type} [DecidableEq α] (l : List (α × β)) (k : α) (v : β) :
    Nat × List (α × β) :=
  match imFindIdx l k with
  | some i => (i, imSetAt l i v)
  | none => (l.length, l ++ [(k, v)])

/-- Modelled from the spec: the Scope Snapshot (`crate::adt::snapshot_map::SnapshotMap`,
not part of the sources available here).  Per spec 4.1: `insert` binds a
name in the current scope shadowing a prior binding, `get` returns the
innermost binding, `snapshot` captures the state as an O(1) token and
`rollback_to` restores exactly that state.  A binding stack realises
this: the snapshot token is the stack itself. -/
abbrev ScopeStack := List (String × DefId)

/-- Bind `n`, shadowing any prior binding (`SnapshotMap::insert`). -/
def scopeInsert (s : ScopeStack) (n : String) (d : DefId) : ScopeStack :=
  (n, d) :: s

/-- Innermost binding of `n`, if any (`SnapshotMap::get`). -/
def scopeGet (s : ScopeStack) (n : String) : Option DefId :=
  alLookup s n

/-- Current bindings, one entry per name (the underlying map's entries:
for each name its innermost, i.e. current, binding). -/
def scopeEntries : ScopeStack → List (String × DefId)
  | [] => []
  | (n, d) :: s => (n, d) :: (scopeEntries s).filter (fun p => p.1 ≠ n)

/-- The two disjoint identifier namespaces. -/
inductive Ns where
  | Label
  | Value
deriving DecidableEq

/-- The symbol table owned per file per pass (`DefUseInfo`). -/
structure DefUseInfo where
  ident_defs : List ((TypstFileId × IdentRef) × IdentDef)
  external_refs : List ((TypstFileId × Option String) × List (Option DefId × IdentRef))
  ident_refs : List (IdentRef × DefId)
  redefine_current : Option TypstFileId
  ident_redefines : List (IdentRef × DefId)
  undefined_refs : List IdentRef
  exports_refs : List DefId
  exports_defs : List (String × DefId)
deriving DecidableEq, Repr

/-- The empty symbol table (`DefUseInfo::default()`). -/
def emptyInfo : DefUseInfo :=
  { ident_defs := [], external_refs := [], ident_refs := [],
    redefine_current := none, ident_redefines := [], undefined_refs := [],
    exports_refs := [], exports_defs := [] }

/-- `DefUseInfo::get_ref`: direct reference lookup. -/
def getRef (info : DefUseInfo) (ident : IdentRef) : Option DefId :=
  alLookup info.ident_refs ident

/-- `DefUseInfo::get_def_by_id`: index into the definition table. -/
def getDefById (info : DefUseInfo) (id : DefId) : Option (TypstFileId × IdentDef) :=
  (info.ident_defs.get? id).map (fun kv => (kv.1.1, kv.2))

/-- `DefUseInfo::get_def`: primary lookup by (file, IdentRef) key, falling
back to the redefinition table when this file is redefine-eligible. -/
def getDef (info : DefUseInfo) (fid : TypstFileId) (ident : IdentRef) :
    Option (DefId × IdentDef) :=
  match imFindIdx info.ident_defs (fid, ident) with
  | some i => (info.ident_defs.get? i).map (fun kv => (i, kv.2))
  | none =>
    if info.redefine_current = some fid then
      match alLookup info.ident_redefines ident with
      | some d =>
        match info.ident_defs.get? d with
        | some kv => some (d, kv.2)
        | none => none
      | none => none
    else none

/-- `DefUseInfo::get_refs`: reverse lookup over the reference table. -/
def getRefs (info : DefUseInfo) (id : DefId) : List IdentRef :=
  (info.ident_refs.filter (fun p => p.2 = id)).map (·.1)

/-- `DefUseInfo::get_external_refs`: lookup by key, empty if absent. -/
def getExternalRefs (info : DefUseInfo) (extId : TypstFileId)
    (extName : Option String) : List (Option DefId × IdentRef) :=
  (alLookup info.external_refs (extId, extName)).getD []

/-- `DefUseInfo::is_exported`: membership in the export list. -/
def isExported (info : DefUseInfo) (id : DefId) : Prop :=
  id ∈ info.exports_refs

/-- The request-scoped search context (`SearchCtx`): the visited set and
the external per-file cache of computed tables. -/
structure SearchCtx where
  searched : List TypstFileId
  cache : List (TypstFileId × DefUseInfo)
deriving DecidableEq

/-- An empty search context, as at the start of a top-level request. -/
def emptyCtx : SearchCtx := { searched := [], cache := [] }

/-- `compute_def_use`: memoize-once installation into the per-file cache. -/
def cacheInstall (c : List (TypstFileId × DefUseInfo)) (fid : TypstFileId)
    (info : DefUseInfo) : List (TypstFileId × DefUseInfo) :=
  match alLookup c fid with
  | some _ => c
  | none => (fid, info) :: c

/-- The external world: per-file lexical hierarchies (`get_lexical_hierarchy`,
`none` when the hierarchy cannot be produced) and the import-path
resolution capability (`find_source_by_import_path`). -/
structure World where
  files : List (TypstFileId × List LexicalHierarchy)
  resolve : TypstFileId → String → Option TypstFileId

/-- The scanner state (`DefUseCollector`): the table being built, the two
scope snapshots, the current file, the active external source, and the
threaded search context. -/
structure Collector where
  info : DefUseInfo
  label_scope : ScopeStack
  id_scope : ScopeStack
  current_id : TypstFileId
  ext_src : Option TypstFileId
  ctx : SearchCtx

/-- `DefUseCollector::insert`: define a name; key `(current_id, IdentRef)`,
payload `(name, kind, range)`; bind the name in the chosen namespace. -/
def insertDef (c : Collector) (ns : Ns) (i : LexicalInfo) : DefId × Collector :=
  let idRef : IdentRef := { name := i.name, range := i.range }
  let (id, defs) := imInsertFull c.info.ident_defs (c.current_id, idRef)
    { name := i.name, kind := i.kind, range := i.range }
  let c := { c with info := { c.info with ident_defs := defs } }
  match ns with
  | .Label => (id, { c with label_scope := scopeInsert c.label_scope i.name id })
  | .Value => (id, { c with id_scope := scopeInsert c.id_scope i.name id })

/-- The scope snapshot of the chosen namespace. -/
def nsScope (c : Collector) (ns : Ns) : ScopeStack :=
  match ns with
  | .Label => c.label_scope
  | .Value => c.id_scope

/-- `DefUseCollector::insert_ident_ref`: resolve a reference against the
chosen namespace; an unresolved one goes to the undefined list. -/
def insertIdentRef (c : Collector) (ns : Ns) (idRef : IdentRef) : Collector :=
  match scopeGet (nsScope c ns) idRef.name with
  | some id => { c with info := { c.info with
      ident_refs := alInsert c.info.ident_refs idRef id } }
  | none => { c with info := { c.info with
      undefined_refs := c.info.undefined_refs ++ [idRef] } }

/-- `DefUseCollector::insert_ref`: reference at a hierarchy node. -/
def insertRef (c : Collector) (ns : Ns) (i : LexicalInfo) : Collector :=
  insertIdentRef c ns { name := i.name, range := i.range }

/-- `DefUseCollector::insert_redef`: record in the redefinition table. -/
def insertRedef (c : Collector) (i : LexicalInfo) : Collector :=
  match scopeGet c.id_scope i.name with
  | some id => { c with info := { c.info with
      ident_redefines := alInsert c.info.ident_redefines
        { name := i.name, range := i.range } id } }
  | none => c

/-- `DefUseCollector::insert_module`: define the module name; with an
active external source also register a dependency edge keyed
`(external file, no name)` (replacing any previous list). -/
def insertModule (c : Collector) (ns : Ns) (i : LexicalInfo) : Collector :=
  let c1 := (insertDef c ns i).2
  match c1.ext_src with
  | some src => { c1 with info := { c1.info with
      external_refs := alInsert c1.info.external_refs (src, none)
        [(none, { name := i.name, range := i.range })] } }
  | none => c1

/-- `DefUseCollector::insert_extern`: with an active external source,
register an external-reference entry keyed `(external file, name)`
(replacing any previous list). -/
def insertExtern (c : Collector) (name : String) (range : Rng)
    (redefineId : Option DefId) : Collector :=
  match c.ext_src with
  | some src => { c with info := { c.info with
      external_refs := alInsert c.info.external_refs (src, some name)
        [(redefineId, { name := name, range := range })] } }
  | none => c

/-- `DefUseCollector::import_from`: copy one foreign definition into the
importer's table under its original `(owning file, IdentRef)` key,
binding its name in the Value namespace. -/
def importFrom (c : Collector) (externalInfo : DefUseInfo) (v : DefId) : Collector :=
  match externalInfo.ident_defs.get? v with
  | none => c
  | some ((extId, _), extSym) =>
    let extRef : IdentRef := { name := extSym.name, range := extSym.range }
    let (id, defs) := imInsertFull c.info.ident_defs (extId, extRef) extSym
    { c with
      info := { c.info with ident_defs := defs },
      id_scope := scopeInsert c.id_scope extSym.name id }

/-- `DefUseCollector::calc_exports`: computed once after the scan, from the
Value scope as it stands. -/
def calcExports (c : Collector) : Collector :=
  { c with info := { c.info with
      exports_refs := (scopeEntries c.id_scope).map (·.2),
      exports_defs := scopeEntries c.id_scope } }

/-- The collector `get_def_use_inner` starts a fresh scan with: empty
table apart from `redefine_current`, empty scopes, no active external
source, and the search context with the file just added to the visited
set. -/
def initColl (fid : TypstFileId) (ctx1 : SearchCtx) : Collector :=
  { info := { emptyInfo with redefine_current := some fid },
    label_scope := [], id_scope := [],
    current_id := fid, ext_src := none, ctx := ctx1 }

mutual

/-- `get_def_use_inner`: cache hit → shared table; already-visited →
no table (cycle guard); missing hierarchy → no table; otherwise scan,
compute exports, install in the cache and return the table. -/
def getDefUseInner (w : World) (fuel : Nat) (ctx : SearchCtx) (fid : TypstFileId) :
    SearchCtx × Option DefUseInfo :=
  match fuel with
  | 0 => (ctx, none)
  | fuel+1 =>
    match alLookup ctx.cache fid with
    | some info => (ctx, some info)
    | none =>
      if fid ∈ ctx.searched then (ctx, none)
      else
        let ctx1 : SearchCtx := { ctx with searched := fid :: ctx.searched }
        match alLookup w.files fid with
        | none => (ctx1, none)
        | some hier =>
          let c0 : Collector := initColl fid ctx1
          let c1 := (scanList w fuel c0 hier).1
          let c2 := calcExports c1
          let res := c2.info
          ({ c2.ctx with cache := cacheInstall c2.ctx.cache fid res }, some res)
termination_by structural fuel

/-- `DefUseCollector::scan` over a node list; an aborting child (`?` in the
Rust loop body) stops the remainder of the list. -/
def scanList (w : World) (fuel : Nat) (c : Collector) (es : List LexicalHierarchy) :
    Collector × Option Unit :=
  match fuel with
  | 0 => (c, none)
  | fuel+1 =>
    match es with
    | [] => (c, some ())
    | e :: rest =>
      match scanOne w fuel c e with
      | (c1, some _) => scanList w fuel c1 rest
      | (c1, none) => (c1, none)
termination_by structural fuel

/-- One iteration of `DefUseCollector::scan`'s match on the node kind.
`import_name` is inlined into the `Ident` and `Alias` branches (its
body: require an active external source, recursively obtain that file's
table, look the name up in its exports, and copy the hit in). -/
def scanOne (w : World) (fuel : Nat) (c : Collector) (e : LexicalHierarchy) :
    Collector × Option Unit :=
  match fuel with
  | 0 => (c, none)
  | fuel+1 =>
    match e with
    | .node i ch =>
      match i.kind with
      | .Heading _ => (c, none)
      | .Var .Label => ((insertDef c .Label i).2, some ())
      | .Var .LabelRef => (insertRef c .Label i, some ())
      | .Var .Function => ((insertDef c .Value i).2, some ())
      | .Var .Variable => ((insertDef c .Value i).2, some ())
      | .Var .ValRef => (insertRef c .Value i, some ())
      | .Mod .PathVar => (insertModule c .Value i, some ())
      | .Mod .ModuleAlias => (insertModule c .Value i, some ())
      | .Mod .Ident =>
        match c.ext_src with
        | none =>
          let (d, c2) := insertDef c .Value i
          (insertExtern c2 i.name i.range (some d), some ())
        | some src =>
          match getDefUseInner w fuel c.ctx src with
          | (ctx2, none) =>
            let c1 := { c with ctx := ctx2 }
            let (d, c2) := insertDef c1 .Value i
            (insertExtern c2 i.name i.range (some d), some ())
          | (ctx2, some externalInfo) =>
            let c1 := { c with ctx := ctx2 }
            match alLookup externalInfo.exports_defs i.name with
            | none =>
              let (d, c2) := insertDef c1 .Value i
              (insertExtern c2 i.name i.range (some d), some ())
            | some extId =>
              let c2 := importFrom c1 externalInfo extId
              (insertRedef (insertRef c2 .Value i) i, some ())
      | .Mod (.Alias target) =>
        match c.ext_src with
        | none =>
          let (d, c2) := insertDef c .Value i
          (insertExtern c2 target.name target.range (some d), some ())
        | some src =>
          match getDefUseInner w fuel c.ctx src with
          | (ctx2, none) =>
            let c1 := { c with ctx := ctx2 }
            let (d, c2) := insertDef c1 .Value i
            (insertExtern c2 target.name target.range (some d), some ())
          | (ctx2, some externalInfo) =>
            let c1 := { c with ctx := ctx2 }
            match alLookup externalInfo.exports_defs target.name with
            | none =>
              let (d, c2) := insertDef c1 .Value i
              (insertExtern c2 target.name target.range (some d), some ())
            | some extId =>
              let c2 := importFrom c1 externalInfo extId
              ((insertDef (insertIdentRef c2 .Value target) .Value i).2, some ())
      | .Block =>
        match ch with
        | some cs =>
          let snap := c.id_scope
          let (c1, r) := scanList w fuel c cs
          ({ c1 with id_scope := snap }, r)
        | none => (c, some ())
      | .Mod (.Module msrc) =>
        let cA := match msrc with
          | .Expr => c
          | .Path p => { c with ext_src := w.resolve c.current_id p }
        match ch with
        | some cs =>
          match scanList w fuel cA cs with
          | (c1, some _) => ({ c1 with ext_src := none }, some ())
          | (c1, none) => (c1, none)
        | none => ({ cA with ext_src := none }, some ())
      | .Mod .Star =>
        match c.ext_src with
        | none => (c, some ())
        | some src =>
          match getDefUseInner w fuel c.ctx src with
          | (ctx2, none) => ({ c with ctx := ctx2 }, none)
          | (ctx2, some externalInfo) =>
            let c1 := { c with ctx := ctx2 }
            (externalInfo.exports_refs.foldl
              (fun acc v => importFrom acc externalInfo v) c1, some ())
termination_by structural fuel

end

/-! ## Serializer (`impl Serialize for DefUseSnapshot`) -/

/-- The order used by `Vec::<IdentRef>::sort()`: `Ord for IdentRef` compares
by name, then by range start. -/
def identLe (a b : IdentRef) : Prop :=
  a.name < b.name ∨ (a.name = b.name ∧ a.range.start ≤ b.range.start)

instance (a b : IdentRef) : Decidable (identLe a b) := by
  unfold identLe; infer_instance

/-- Insert into a list sorted by `identLe`, keeping it sorted. -/
def insSorted (x : IdentRef) : List IdentRef → List IdentRef
  | [] => [x]
  | y :: ys => if identLe x y then x :: y :: ys else y :: insSorted x ys

/-- Sort a reference list by name, then by range start (`v.sort()`). -/
def sortRefs (l : List IdentRef) : List IdentRef :=
  l.foldr insSorted []

/-- Append `r` to the group of `d` (`map.entry(*v).or_insert_with(Vec::new).push(k)`). -/
def groupPush (m : List (DefId × List IdentRef)) (d : DefId) (r : IdentRef) :
    List (DefId × List IdentRef) :=
  match m with
  | [] => [(d, [r])]
  | (k, v) :: rest => if k = d then (k, v ++ [r]) :: rest else (k, v) :: groupPush rest d r

/-- Build the DefId → references map from the reference table. -/
def buildRefGroups (l : List (IdentRef × DefId)) : List (DefId × List IdentRef) :=
  l.foldl (fun m p => groupPush m p.2 p.1) []

/-- One serialized entry: the definition payload and its references
(`DefUseEntry`). -/
structure SerEntry where
  defn : IdentDef
  refs : List IdentRef
deriving DecidableEq, Repr

/-- The placeholder definition attached to the trailing `<nil>` entry. -/
def nilDef : IdentDef := { name := "<nil>", kind := .Block, range := ⟨0, 0⟩ }

/-- The serializer's entry key: the `IdentRef` rendering followed by `@`
and the canonical project-relative path
(`format!` of the key's `IdentRef` and `unix_slash(vpath)`). -/
def serKey (key : TypstFileId × IdentRef) : String :=
  identRefRepr key.2 ++ "@" ++ key.1.path

/-- The per-slot entries of the serialized document, in table order. -/
def serMain (info : DefUseInfo) : List (String × SerEntry) :=
  info.ident_defs.enum.map (fun p =>
    (serKey p.2.1,
     { defn := p.2.2,
       refs := sortRefs ((alLookup (buildRefGroups info.ident_refs) p.1).getD []) }))

/-- `DefUseSnapshot::serialize`: one entry per definition-table slot in
table order, keyed by `serKey`, holding the payload and that slot's
references sorted by name then range start; then, only when the
undefined-reference list is nonempty, a trailing `"<nil>"` entry holding
all sorted unresolved references.  The document is a pure function of the
table, so serializing the same table always yields identical output. -/
def serialize (info : DefUseInfo) : List (String × SerEntry) :=
  serMain info ++ (if info.undefined_refs = [] then []
    else [("<nil>", { defn := nilDef, refs := sortRefs info.undefined_refs })])

/-- Keys are never duplicated in the definition table. -/
def keysNodup {α β : Type} (l : List (α × β)) : Prop :=
  (l.map Prod.fst).Nodup

/-! ## Well-formedness invariants -/

/-- Every `DefId` bound in a scope is a valid slot index below `n`. -/
def scopeOK (s : ScopeStack) (n : Nat) : Prop := ∀ p ∈ s, p.2 < n

/-- Table invariants: unique `(file, IdentRef)` keys; every `DefId` stored
in the reference, redefinition and export tables is a valid 0-based index
below the definition-table length; every external-reference list is a
single-element list. -/
def infoWF (info : DefUseInfo) : Prop :=
  keysNodup info.ident_defs ∧
  (∀ p ∈ info.ident_refs, p.2 < info.ident_defs.length) ∧
  (∀ p ∈ info.ident_redefines, p.2 < info.ident_defs.length) ∧
  (∀ d ∈ info.exports_refs, d < info.ident_defs.length) ∧
  (∀ p ∈ info.exports_defs, p.2 < info.ident_defs.length) ∧
  (∀ p ∈ info.external_refs, p.2.length = 1)

/-- Collector invariant: table invariants plus valid scope bindings. -/
def collWF (c : Collector) : Prop :=
  infoWF c.info ∧ scopeOK c.id_scope c.info.ident_defs.length ∧
  scopeOK c.label_scope c.info.ident_defs.length

/-- Every table installed in the cache satisfies the table invariants. -/
def cacheWF (ctx : SearchCtx) : Prop := ∀ p ∈ ctx.cache, infoWF p.2

/-- Installed cache entries persist, unmodified, across a computation. -/
def cacheMono (a b : SearchCtx) : Prop := ∀ p ∈ a.cache, p ∈ b.cache

instance (info : DefUseInfo) : Decidable (infoWF info) := by
  unfold infoWF keysNodup; infer_instance

instance (c : Collector) : Decidable (collWF c) := by
  unfold collWF scopeOK; infer_instance

instance (ctx : SearchCtx) : Decidable (cacheWF ctx) := by
  unfold cacheWF; infer_instance

/-- Invariant-preservation statement for `getDefUseInner` at one fuel. -/
def PInner (fuel : Nat) : Prop :=
  ∀ (w : World) (ctx : SearchCtx) (fid : TypstFileId), cacheWF ctx →
    cacheWF (getDefUseInner w fuel ctx fid).1 ∧
    cacheMono ctx (getDefUseInner w fuel ctx fid).1 ∧
    (∀ info, (getDefUseInner w fuel ctx fid).2 = some info → infoWF info)

/-- Invariant-preservation statement for `scanList` at one fuel. -/
def PList (fuel : Nat) : Prop :=
  ∀ (w : World) (c : Collector) (es : List LexicalHierarchy),
    collWF c → cacheWF c.ctx →
    collWF (scanList w fuel c es).1 ∧
    cacheWF (scanList w fuel c es).1.ctx ∧
    cacheMono c.ctx (scanList w fuel c es).1.ctx ∧
    c.info.ident_defs.length ≤ (scanList w fuel c es).1.info.ident_defs.length

/-- Invariant-preservation statement for `scanOne` at one fuel. -/
def POne (fuel : Nat) : Prop :=
  ∀ (w : World) (c : Collector) (e : LexicalHierarchy),
    collWF c → cacheWF c.ctx →
    collWF (scanOne w fuel c e).1 ∧
    cacheWF (scanOne w fuel c e).1.ctx ∧
    cacheMono c.ctx (scanOne w fuel c e).1.ctx ∧
    c.info.ident_defs.length ≤ (scanOne w fuel c e).1.info.ident_defs.length

/-- Search-context stability from `a` to `b`: the visited set only grows,
installed cache entries persist, and a visited-but-uncached file stays
uncached. -/
def ctxStable (a b : SearchCtx) : Prop :=
  (∀ fid, fid ∈ a.searched → fid ∈ b.searched) ∧
  cacheMono a b ∧
  (∀ fid, fid ∈ a.searched → alLookup a.cache fid = none →
    alLookup b.cache fid = none)

/-- Search-context stability statement for `getDefUseInner` at one fuel. -/
def QInner (fuel : Nat) : Prop :=
  ∀ (w : World) (ctx : SearchCtx) (fid0 : TypstFileId),
    ctxStable ctx (getDefUseInner w fuel ctx fid0).1

/-- Search-context stability statement for `scanList` at one fuel. -/
def QList (fuel : Nat) : Prop :=
  ∀ (w : World) (c : Collector) (es : List LexicalHierarchy),
    ctxStable c.ctx (scanList w fuel c es).1.ctx

/-- Search-context stability statement for `scanOne` at one fuel. -/
def QOne (fuel : Nat) : Prop :=
  ∀ (w : World) (c : Collector) (e : LexicalHierarchy),
    ctxStable c.ctx (scanOne w fuel c e).1.ctx

/-! ## Concrete example worlds used by witnesses and counterexamples -/

def fidA : TypstFileId := ⟨"a.typ"⟩

def fidB : TypstFileId := ⟨"b.typ"⟩

/-- Import-path resolution shared by the example worlds. -/
def exResolve : TypstFileId → String → Option TypstFileId :=
  fun _ p => if p = "b" then some fidB else if p = "a" then some fidA else none

/-- A hierarchy node defining a variable. -/
def vnode (n : String) (s t : Nat) : LexicalHierarchy :=
  .node ⟨n, .Var .Variable, ⟨s, t⟩⟩ none

/-- A hierarchy node referencing a value identifier. -/
def rnode (n : String) (s t : Nat) : LexicalHierarchy :=
  .node ⟨n, .Var .ValRef, ⟨s, t⟩⟩ none

/-- The hierarchy of `a.typ` in `wImp`: `import x from "b"`. -/
def hierImpA : List LexicalHierarchy :=
  [ .node ⟨"", .Mod (.Module (.Path "b")), ⟨0, 0⟩⟩
      (some [ .node ⟨"x", .Mod .Ident, ⟨5, 6⟩⟩ none ]) ]

/-- World in which `a.typ` does `import x from "b"` and `b.typ` defines
`x`; exercising the identifier-import and redefinition machinery. -/
def wImp : World :=
  { files := [ (fidA, hierImpA), (fidB, [ vnode "x" 0 1 ]) ],
    resolve := exResolve }

/-- The table computed for `a.typ` in `wImp`. -/
def impInfoA : DefUseInfo := ((getDefUseInner wImp 10 emptyCtx fidA).2).getD emptyInfo

/-- World with a star-import cycle: `a.typ` star-imports `b.typ`, and
`b.typ` star-imports `a.typ` and then defines `y`. -/
def wCyc : World :=
  { files := [
      (fidA, [ .node ⟨"", .Mod (.Module (.Path "b")), ⟨0, 0⟩⟩
                 (some [ .node ⟨"", .Mod .Star, ⟨1, 2⟩⟩ none ]) ]),
      (fidB, [ .node ⟨"", .Mod (.Module (.Path "a")), ⟨0, 0⟩⟩
                 (some [ .node ⟨"", .Mod .Star, ⟨1, 2⟩⟩ none ]),
               vnode "y" 10 11 ]) ],
    resolve := exResolve }

/-- World in which `b.typ` exports `x` and `y`; used for star-import and
unresolved-import witnesses. -/
def wExp : World :=
  { files := [
      (fidA, []),
      (fidB, [ vnode "x" 0 1, vnode "y" 2 3 ]) ],
    resolve := exResolve }

/-- A collector mid-scan of `a.typ` with the given active external source,
as after opening a module node. -/
def cW (ext : Option TypstFileId) : Collector :=
  { info := { emptyInfo with redefine_current := some fidA },
    label_scope := [], id_scope := [],
    current_id := fidA, ext_src := ext,
    ctx := { searched := [fidA], cache := [] } }

/-- The search context after computing `b.typ` in `wExp` from `cW`. -/
def expCtx2 : SearchCtx := (getDefUseInner wExp 5 (cW (some fidB)).ctx fidB).1

/-- The table computed for `b.typ` in `wExp`. -/
def expInfoB : DefUseInfo :=
  ((getDefUseInner wExp 5 (cW (some fidB)).ctx fidB).2).getD emptyInfo

/-- The key of `x`'s definition slot in the small examples. -/
def xKey : TypstFileId × IdentRef := (fidA, ⟨"x", ⟨0, 1⟩⟩)

/-- The payload of `x`'s definition in the small examples. -/
def xDefV : IdentDef := ⟨"x", .Var .Variable, ⟨0, 1⟩⟩

/-- An alternative payload for the same key. -/
def xDefF : IdentDef := ⟨"x", .Var .Function, ⟨0, 1⟩⟩

/-- A one-definition table used to exhibit the serializer's key format. -/
def serExInfo : DefUseInfo :=
  { emptyInfo with
    ident_defs := [((fidA, ⟨"x", ⟨1, 2⟩⟩), ⟨"x", .Var .Variable, ⟨1, 2⟩⟩)],
    redefine_current := some fidA }

/-! ## Association-list and index-map lemmas -/

theorem alLookup_mem {α β : Type} [DecidableEq α] (l : List (α × β)) (k : α) (b : β)
    (h : alLookup l k = some b) : (k, b) ∈ l := by
  induction l with
  | nil => simp [alLookup] at h
  | cons p t ih =>
    obtain ⟨a, v⟩ := p
    simp only [alLookup] at h
    split at h
    · rename_i heq
      cases h
      subst heq
      exact List.mem_cons_self _ _
    · exact List.mem_cons_of_mem _ (ih h)

theorem alInsert_mem {α β : Type} [DecidableEq α] (l : List (α × β)) (k : α) (v : β)
    (p : α × β) (h : p ∈ alInsert l k v) : p = (k, v) ∨ p ∈ l := by
  induction l with
  | nil => simpa [alInsert] using h
  | cons q t ih =>
    obtain ⟨a, b⟩ := q
    simp only [alInsert] at h
    split at h
    · rcases List.mem_cons.1 h with h1 | h1
      · exact .inl h1
      · exact .inr (List.mem_cons_of_mem _ h1)
    · rcases List.mem_cons.1 h with h1 | h1
      · exact .inr (h1 ▸ List.mem_cons_self _ _)
      · rcases ih h1 with h2 | h2
        · exact .inl h2
        · exact .inr (List.mem_cons_of_mem _ h2)

theorem alLookup_alInsert_self {α β : Type} [DecidableEq α] (l : List (α × β))
    (k : α) (v : β) : alLookup (alInsert l k v) k = some v := by
  induction l with
  | nil => simp [alInsert, alLookup]
  | cons q t ih =>
    obtain ⟨a, b⟩ := q
    simp only [alInsert]
    split
    · simp [alLookup]
    · rename_i hne
      simp only [alLookup, if_neg hne]
      exact ih

theorem imFindIdx_lt_length {α β : Type} [DecidableEq α] (l : List (α × β)) (k : α)
    (i : Nat) (h : imFindIdx l k = some i) : i < l.length := by
  induction l generalizing i with
  | nil => simp [imFindIdx] at h
  | cons q t ih =>
    obtain ⟨a, b⟩ := q
    simp only [imFindIdx] at h
    split at h
    · cases h; simp
    · rcases Option.map_eq_some'.1 h with ⟨j, hj, rfl⟩
      have := ih j hj
      simpa using Nat.succ_lt_succ this

theorem imFindIdx_none {α β : Type} [DecidableEq α] (l : List (α × β)) (k : α)
    (h : imFindIdx l k = none) : k ∉ l.map Prod.fst := by
  induction l with
  | nil => simp
  | cons q t ih =>
    obtain ⟨a, b⟩ := q
    simp only [imFindIdx] at h
    split at h
    · cases h
    · rename_i hne
      simp only [List.map_cons, List.mem_cons]
      rintro (rfl | hk)
      · exact hne rfl
      · exact ih (Option.map_eq_none'.1 h) hk

theorem imSetAt_length {α β : Type} (l : List (α × β)) (i : Nat) (v : β) :
    (imSetAt l i v).length = l.length := by
  induction l generalizing i with
  | nil => simp [imSetAt]
  | cons q t ih =>
    cases i with
    | zero => obtain ⟨a, b⟩ := q; simp [imSetAt]
    | succ j => simp [imSetAt, ih]

theorem imSetAt_keys {α β : Type} (l : List (α × β)) (i : Nat) (v : β) :
    (imSetAt l i v).map Prod.fst = l.map Prod.fst := by
  induction l generalizing i with
  | nil => simp [imSetAt]
  | cons q t ih =>
    cases i with
    | zero => obtain ⟨a, b⟩ := q; simp [imSetAt]
    | succ j => simp [imSetAt, ih]

theorem imInsertFull_length_le {α β : Type} [DecidableEq α] (l : List (α × β))
    (k : α) (v : β) : l.length ≤ (imInsertFull l k v).2.length := by
  unfold imInsertFull
  split
  · rename_i i h
    simp [imSetAt_length]
  · simp

theorem imInsertFull_fst_lt {α β : Type} [DecidableEq α] (l : List (α × β))
    (k : α) (v : β) : (imInsertFull l k v).1 < (imInsertFull l k v).2.length := by
  unfold imInsertFull
  split
  · rename_i i h
    simpa [imSetAt_length] using imFindIdx_lt_length l k i h
  · simp

theorem imInsertFull_nodup {α β : Type} [DecidableEq α] (l : List (α × β))
    (k : α) (v : β) (h : keysNodup l) : keysNodup (imInsertFull l k v).2 := by
  unfold imInsertFull
  split
  · rename_i i hfind
    unfold keysNodup
    rw [imSetAt_keys]
    exact h
  · rename_i hfind
    unfold keysNodup
    rw [List.map_append]
    simp only [List.map_cons, List.map_nil]
    refine List.Nodup.append h (List.nodup_singleton k) ?_
    intro a ha hb
    simp only [List.mem_singleton] at hb
    exact imFindIdx_none l k hfind (hb ▸ ha)

theorem imInsertFull_keys_mono {α β : Type} [DecidableEq α] (l : List (α × β))
    (k : α) (v : β) (a : α) (h : a ∈ l.map Prod.fst) :
    a ∈ (imInsertFull l k v).2.map Prod.fst := by
  unfold imInsertFull
  split
  · rw [imSetAt_keys]; exact h
  · rw [List.map_append]; exact List.mem_append_left _ h

theorem imInsertFull_key_mem {α β : Type} [DecidableEq α] (l : List (α × β))
    (k : α) (v : β) : k ∈ (imInsertFull l k v).2.map Prod.fst := by
  unfold imInsertFull
  split
  · rename_i i hfind
    rw [imSetAt_keys]
    induction l generalizing i with
    | nil => simp [imFindIdx] at hfind
    | cons q t ih =>
      obtain ⟨a, b⟩ := q
      simp only [imFindIdx] at hfind
      split at hfind
      · rename_i heq; subst heq; simp
      · rcases Option.map_eq_some'.1 hfind with ⟨j, hj, _⟩
        simp only [List.map_cons, List.mem_cons]
        exact .inr (ih j hj)
  · rw [List.map_append]
    exact List.mem_append_right _ (by simp)

/-- `IndexMap::insert_full` on an existing key returns the existing index
and allocates no new slot. -/
theorem imInsertFull_existing {α β : Type} [DecidableEq α] (l : List (α × β))
    (k : α) (v : β) (i : Nat) (h : imFindIdx l k = some i) :
    (imInsertFull l k v).1 = i ∧ (imInsertFull l k v).2.length = l.length := by
  unfold imInsertFull
  rw [h]
  exact ⟨rfl, imSetAt_length l i v⟩

theorem getq_isSome_iff {α : Type} (l : List α) (i : Nat) :
    (l.get? i).isSome = true ↔ i < l.length := by
  rw [List.get?_eq_getElem?]
  constructor
  · intro h
    by_contra hlt
    push_neg at hlt
    rw [List.getElem?_eq_none hlt] at h
    simp at h
  · intro h
    rw [List.getElem?_eq_getElem h]
    rfl

theorem scopeOK_mono {s : ScopeStack} {n m : Nat} (h : scopeOK s n) (hnm : n ≤ m) :
    scopeOK s m := fun p hp => Nat.lt_of_lt_of_le (h p hp) hnm

theorem scopeOK_insert {s : ScopeStack} {n : Nat} {nm : String} {d : DefId}
    (h : scopeOK s n) (hd : d < n) : scopeOK (scopeInsert s nm d) n := by
  intro p hp
  rcases List.mem_cons.1 hp with rfl | hp
  · exact hd
  · exact h p hp

theorem scopeGet_lt {s : ScopeStack} {n : Nat} {nm : String} {d : DefId}
    (h : scopeOK s n) (hg : scopeGet s nm = some d) : d < n :=
  h (nm, d) (alLookup_mem s nm d hg)

theorem scopeEntries_subset {s : ScopeStack} {p : String × DefId}
    (h : p ∈ scopeEntries s) : p ∈ s := by
  induction s with
  | nil => simp [scopeEntries] at h
  | cons q t ih =>
    simp only [scopeEntries, List.mem_cons] at h
    rcases h with rfl | h
    · exact List.mem_cons_self _ _
    · exact List.mem_cons_of_mem _ (ih (List.mem_of_mem_filter h))

/-! ### Per-operation preservation lemmas -/

theorem insertDef_unchanged (c : Collector) (ns : Ns) (i : LexicalInfo) :
    (insertDef c ns i).2.ctx = c.ctx ∧
    (insertDef c ns i).2.current_id = c.current_id ∧
    (insertDef c ns i).2.ext_src = c.ext_src ∧
    (insertDef c ns i).2.info.external_refs = c.info.external_refs ∧
    (insertDef c ns i).2.info.ident_refs = c.info.ident_refs ∧
    (insertDef c ns i).2.info.redefine_current = c.info.redefine_current := by
  cases ns <;> exact ⟨rfl, rfl, rfl, rfl, rfl, rfl⟩

theorem insertDef_wf (c : Collector) (ns : Ns) (i : LexicalInfo) (h : collWF c) :
    collWF (insertDef c ns i).2 ∧
    c.info.ident_defs.length ≤ (insertDef c ns i).2.info.ident_defs.length ∧
    (insertDef c ns i).1 < (insertDef c ns i).2.info.ident_defs.length := by
  obtain ⟨⟨hnodup, hrefs, hredef, hexr, hexd, hext⟩, hid, hlab⟩ := h
  have hle := imInsertFull_length_le c.info.ident_defs
    (c.current_id, { name := i.name, range := i.range })
    { name := i.name, kind := i.kind, range := i.range }
  have hlt := imInsertFull_fst_lt c.info.ident_defs
    (c.current_id, { name := i.name, range := i.range })
    { name := i.name, kind := i.kind, range := i.range }
  have hnd := imInsertFull_nodup c.info.ident_defs
    (c.current_id, { name := i.name, range := i.range })
    { name := i.name, kind := i.kind, range := i.range } hnodup
  cases ns <;>
  · refine ⟨⟨⟨hnd, ?_, ?_, ?_, ?_, hext⟩, ?_, ?_⟩, hle, hlt⟩
    · exact fun p hp => Nat.lt_of_lt_of_le (hrefs p hp) hle
    · exact fun p hp => Nat.lt_of_lt_of_le (hredef p hp) hle
    · exact fun d hd => Nat.lt_of_lt_of_le (hexr d hd) hle
    · exact fun p hp => Nat.lt_of_lt_of_le (hexd p hp) hle
    all_goals first
      | exact scopeOK_insert (scopeOK_mono hid hle) hlt
      | exact scopeOK_insert (scopeOK_mono hlab hle) hlt
      | exact scopeOK_mono hid hle
      | exact scopeOK_mono hlab hle

theorem insertIdentRef_wf (c : Collector) (ns : Ns) (idRef : IdentRef)
    (h : collWF c) :
    collWF (insertIdentRef c ns idRef) ∧
    (insertIdentRef c ns idRef).info.ident_defs = c.info.ident_defs ∧
    (insertIdentRef c ns idRef).ctx = c.ctx ∧
    (insertIdentRef c ns idRef).id_scope = c.id_scope ∧
    (insertIdentRef c ns idRef).label_scope = c.label_scope := by
  obtain ⟨⟨hnodup, hrefs, hredef, hexr, hexd, hext⟩, hid, hlab⟩ := h
  cases hg : scopeGet (nsScope c ns) idRef.name with
  | some id =>
    have hidlt : id < c.info.ident_defs.length := by
      cases ns with
      | Label => exact scopeGet_lt hlab hg
      | Value => exact scopeGet_lt hid hg
    simp only [insertIdentRef, hg]
    refine ⟨⟨⟨hnodup, ?_, hredef, hexr, hexd, hext⟩, hid, hlab⟩, trivial, trivial, trivial, trivial⟩
    intro p hp
    rcases alInsert_mem _ _ _ _ hp with rfl | hp
    · exact hidlt
    · exact hrefs p hp
  | none =>
    simp only [insertIdentRef, hg]
    exact ⟨⟨⟨hnodup, hrefs, hredef, hexr, hexd, hext⟩, hid, hlab⟩, trivial, trivial, trivial, trivial⟩

theorem insertRedef_wf (c : Collector) (i : LexicalInfo) (h : collWF c) :
    collWF (insertRedef c i) ∧
    (insertRedef c i).info.ident_defs = c.info.ident_defs ∧
    (insertRedef c i).ctx = c.ctx ∧
    (insertRedef c i).id_scope = c.id_scope ∧
    (insertRedef c i).label_scope = c.label_scope := by
  obtain ⟨⟨hnodup, hrefs, hredef, hexr, hexd, hext⟩, hid, hlab⟩ := h
  cases hg : scopeGet c.id_scope i.name with
  | some id =>
    have hidlt : id < c.info.ident_defs.length := scopeGet_lt hid hg
    simp only [insertRedef, hg]
    refine ⟨⟨⟨hnodup, hrefs, ?_, hexr, hexd, hext⟩, hid, hlab⟩, trivial, trivial, trivial, trivial⟩
    intro p hp
    rcases alInsert_mem _ _ _ _ hp with rfl | hp
    · exact hidlt
    · exact hredef p hp
  | none =>
    simp only [insertRedef, hg]
    exact ⟨⟨⟨hnodup, hrefs, hredef, hexr, hexd, hext⟩, hid, hlab⟩, trivial, trivial, trivial, trivial⟩

theorem extRefsInsert_wf {l : List ((TypstFileId × Option String) × List (Option DefId × IdentRef))}
    (hext : ∀ p ∈ l, p.2.length = 1) (k : TypstFileId × Option String)
    (e : Option DefId × IdentRef) :
    ∀ p ∈ alInsert l k [e], p.2.length = 1 := by
  intro p hp
  rcases alInsert_mem _ _ _ _ hp with rfl | hp
  · rfl
  · exact hext p hp

theorem insertExtern_wf (c : Collector) (name : String) (range : Rng)
    (redefineId : Option DefId) (h : collWF c) :
    collWF (insertExtern c name range redefineId) ∧
    (insertExtern c name range redefineId).info.ident_defs = c.info.ident_defs ∧
    (insertExtern c name range redefineId).ctx = c.ctx ∧
    (insertExtern c name range redefineId).id_scope = c.id_scope ∧
    (insertExtern c name range redefineId).label_scope = c.label_scope := by
  obtain ⟨⟨hnodup, hrefs, hredef, hexr, hexd, hext⟩, hid, hlab⟩ := h
  cases hsrc : c.ext_src with
  | some src =>
    simp only [insertExtern, hsrc]
    refine ⟨⟨⟨hnodup, hrefs, hredef, hexr, hexd, ?_⟩, hid, hlab⟩, trivial, trivial, trivial, trivial⟩
    exact extRefsInsert_wf hext _ _
  | none =>
    simp only [insertExtern, hsrc]
    exact ⟨⟨⟨hnodup, hrefs, hredef, hexr, hexd, hext⟩, hid, hlab⟩, trivial, trivial, trivial, trivial⟩

theorem insertModule_wf (c : Collector) (ns : Ns) (i : LexicalInfo) (h : collWF c) :
    collWF (insertModule c ns i) ∧
    c.info.ident_defs.length ≤ (insertModule c ns i).info.ident_defs.length ∧
    (insertModule c ns i).ctx = c.ctx := by
  obtain ⟨hwf, hle, -⟩ := insertDef_wf c ns i h
  obtain ⟨hctx, -, -, -, -, -⟩ := insertDef_unchanged c ns i
  obtain ⟨⟨hnodup, hrefs, hredef, hexr, hexd, hext⟩, hid, hlab⟩ := hwf
  cases hsrc : (insertDef c ns i).2.ext_src with
  | some src =>
    simp only [insertModule, hsrc]
    exact ⟨⟨⟨hnodup, hrefs, hredef, hexr, hexd, extRefsInsert_wf hext _ _⟩,
      hid, hlab⟩, hle, hctx⟩
  | none =>
    simp only [insertModule, hsrc]
    exact ⟨⟨⟨hnodup, hrefs, hredef, hexr, hexd, hext⟩, hid, hlab⟩, hle, hctx⟩

theorem importFrom_wf (c : Collector) (externalInfo : DefUseInfo) (v : DefId)
    (h : collWF c) :
    collWF (importFrom c externalInfo v) ∧
    c.info.ident_defs.length ≤ (importFrom c externalInfo v).info.ident_defs.length ∧
    (importFrom c externalInfo v).ctx = c.ctx ∧
    (importFrom c externalInfo v).current_id = c.current_id ∧
    (importFrom c externalInfo v).ext_src = c.ext_src := by
  obtain ⟨⟨hnodup, hrefs, hredef, hexr, hexd, hext⟩, hid, hlab⟩ := h
  unfold importFrom
  split
  · exact ⟨⟨⟨hnodup, hrefs, hredef, hexr, hexd, hext⟩, hid, hlab⟩,
      Nat.le_refl _, rfl, rfl, rfl⟩
  · rename_i extId pr extSym heq
    have hle := imInsertFull_length_le c.info.ident_defs
      (extId, { name := extSym.name, range := extSym.range }) extSym
    have hlt := imInsertFull_fst_lt c.info.ident_defs
      (extId, { name := extSym.name, range := extSym.range }) extSym
    have hnd := imInsertFull_nodup c.info.ident_defs
      (extId, { name := extSym.name, range := extSym.range }) extSym hnodup
    refine ⟨⟨⟨hnd, ?_, ?_, ?_, ?_, hext⟩, ?_, ?_⟩, hle, rfl, rfl, rfl⟩
    · exact fun p hp => Nat.lt_of_lt_of_le (hrefs p hp) hle
    · exact fun p hp => Nat.lt_of_lt_of_le (hredef p hp) hle
    · exact fun d hd => Nat.lt_of_lt_of_le (hexr d hd) hle
    · exact fun p hp => Nat.lt_of_lt_of_le (hexd p hp) hle
    · exact scopeOK_insert (scopeOK_mono hid hle) hlt
    · exact scopeOK_mono hlab hle

theorem importFromFold_wf (externalInfo : DefUseInfo) (l : List DefId)
    (c : Collector) (h : collWF c) :
    collWF (l.foldl (fun acc v => importFrom acc externalInfo v) c) ∧
    c.info.ident_defs.length ≤
      (l.foldl (fun acc v => importFrom acc externalInfo v) c).info.ident_defs.length ∧
    (l.foldl (fun acc v => importFrom acc externalInfo v) c).ctx = c.ctx := by
  induction l generalizing c with
  | nil => exact ⟨h, Nat.le_refl _, rfl⟩
  | cons v t ih =>
    obtain ⟨hwf1, hle1, hctx1, -, -⟩ := importFrom_wf c externalInfo v h
    obtain ⟨hwf2, hle2, hctx2⟩ := ih _ hwf1
    exact ⟨hwf2, Nat.le_trans hle1 hle2, by rw [List.foldl_cons, hctx2, hctx1]⟩

theorem calcExports_wf (c : Collector) (h : collWF c) :
    infoWF (calcExports c).info ∧ (calcExports c).ctx = c.ctx := by
  obtain ⟨⟨hnodup, hrefs, hredef, hexr, hexd, hext⟩, hid, hlab⟩ := h
  refine ⟨⟨hnodup, hrefs, hredef, ?_, ?_, hext⟩, rfl⟩
  · intro d hd
    rcases List.mem_map.1 hd with ⟨p, hp, rfl⟩
    exact hid p (scopeEntries_subset hp)
  · intro p hp
    exact hid p (scopeEntries_subset hp)

theorem cacheInstall_wf {ctx : List (TypstFileId × DefUseInfo)} {fid : TypstFileId}
    {info : DefUseInfo} (h : ∀ p ∈ ctx, infoWF p.2) (hinfo : infoWF info) :
    ∀ p ∈ cacheInstall ctx fid info, infoWF p.2 := by
  unfold cacheInstall
  split
  · exact h
  · intro p hp
    rcases List.mem_cons.1 hp with rfl | hp
    · exact hinfo
    · exact h p hp

theorem cacheInstall_mono {ctx : List (TypstFileId × DefUseInfo)} {fid : TypstFileId}
    {info : DefUseInfo} : ∀ p ∈ ctx, p ∈ cacheInstall ctx fid info := by
  unfold cacheInstall
  split
  · exact fun p hp => hp
  · exact fun p hp => List.mem_cons_of_mem _ hp

theorem cacheMono_refl (ctx : SearchCtx) : cacheMono ctx ctx := fun _ hp => hp

theorem cacheMono_trans {a b c : SearchCtx} (h1 : cacheMono a b) (h2 : cacheMono b c) :
    cacheMono a c := fun p hp => h2 p (h1 p hp)

theorem cacheWF_lookup {ctx : SearchCtx} {fid : TypstFileId} {info : DefUseInfo}
    (h : cacheWF ctx) (hl : alLookup ctx.cache fid = some info) : infoWF info :=
  h (fid, info) (alLookup_mem _ _ _ hl)

/-! ## Master preservation theorem

By simultaneous induction on the fuel: `get_def_use_inner` preserves the
cache invariants and only ever hands out well-formed tables; the scanner
preserves the collector invariants, never shrinks the definition table,
and never disturbs installed cache entries. -/

theorem masterWF : ∀ fuel : Nat, PInner fuel ∧ PList fuel ∧ POne fuel := by
  intro fuel
  induction fuel with
  | zero =>
    refine ⟨?_, ?_, ?_⟩
    · intro w ctx fid h
      exact ⟨h, cacheMono_refl ctx, by intro info hinfo; simp [getDefUseInner] at hinfo⟩
    · intro w c es hc hw
      exact ⟨hc, hw, cacheMono_refl _, Nat.le_refl _⟩
    · intro w c e hc hw
      exact ⟨hc, hw, cacheMono_refl _, Nat.le_refl _⟩
  | succ f ih =>
    obtain ⟨ihI, ihL, ihO⟩ := ih
    have stepI : PInner (f + 1) := by
      intro w ctx fid hw
      simp only [getDefUseInner]
      cases hc : alLookup ctx.cache fid with
      | some info =>
        simp only
        refine ⟨hw, cacheMono_refl ctx, ?_⟩
        intro i hi
        cases hi
        exact cacheWF_lookup hw hc
      | none =>
        simp only
        by_cases hs : fid ∈ ctx.searched
        · simp only [if_pos hs]
          exact ⟨hw, cacheMono_refl ctx, by intro i hi; cases hi⟩
        · simp only [if_neg hs]
          cases hh : alLookup w.files fid with
          | none =>
            simp only
            exact ⟨hw, cacheMono_refl ctx, by intro i hi; cases hi⟩
          | some hier =>
            simp only
            set ctx1 : SearchCtx := { ctx with searched := fid :: ctx.searched } with hctx1
            set c0 : Collector := initColl fid ctx1 with hc0
            have hc0wf : collWF c0 := by
              constructor
              · constructor
                · exact List.nodup_nil
                · refine ⟨?_, ?_, ?_, ?_, ?_⟩ <;> intro p hp <;>
                    simp [hc0, initColl, emptyInfo] at hp
              · constructor <;> intro p hp <;> simp [hc0, initColl] at hp
            have hctx1wf : cacheWF ctx1 := hw
            obtain ⟨h1wf, h1cw, h1mono, h1le⟩ := ihL w c0 hier hc0wf hctx1wf
            set c1 := (scanList w f c0 hier).1 with hc1
            obtain ⟨h2wf, h2ctx⟩ := calcExports_wf c1 h1wf
            refine ⟨?_, ?_, ?_⟩
            · intro p hp
              exact cacheInstall_wf (by rw [h2ctx]; exact h1cw) h2wf p hp
            · intro p hp
              apply cacheInstall_mono
              rw [h2ctx]
              exact h1mono p hp
            · intro i hi
              cases hi
              exact h2wf
    have stepO : POne (f + 1) := by
      intro w c e hc hw
      obtain ⟨i, ch⟩ := e
      obtain ⟨nm, ki, rng⟩ := i
      cases ki with
      | Heading lvl =>
        simp only [scanOne]
        exact ⟨hc, hw, cacheMono_refl _, Nat.le_refl _⟩
      | Block =>
        cases ch with
        | none =>
          simp only [scanOne]
          exact ⟨hc, hw, cacheMono_refl _, Nat.le_refl _⟩
        | some cs =>
          simp only [scanOne]
          obtain ⟨h1wf, h1cw, h1mono, h1le⟩ := ihL w c cs hc hw
          obtain ⟨⟨h1info, h1id, h1lab⟩, -⟩ := And.intro h1wf trivial
          obtain ⟨⟨hinfo0, hid0, hlab0⟩, -⟩ := And.intro hc trivial
          refine ⟨⟨h1info, ?_, h1lab⟩, h1cw, h1mono, h1le⟩
          exact scopeOK_mono hid0 (Nat.le_trans (Nat.le_refl _) h1le)
      | Var vk =>
        cases vk with
        | Label =>
          simp only [scanOne]
          obtain ⟨hwf, hle, -⟩ := insertDef_wf c .Label ⟨nm, .Var .Label, rng⟩ hc
          obtain ⟨hctx, -, -, -, -, -⟩ := insertDef_unchanged c .Label ⟨nm, .Var .Label, rng⟩
          exact ⟨hwf, by rw [hctx]; exact hw, by rw [hctx]; exact cacheMono_refl _, hle⟩
        | LabelRef =>
          simp only [scanOne, insertRef]
          obtain ⟨hwf, -, hctx, -, -⟩ := insertIdentRef_wf c .Label ⟨nm, rng⟩ hc
          refine ⟨hwf, by rw [hctx]; exact hw, by rw [hctx]; exact cacheMono_refl _, ?_⟩
          obtain ⟨-, hdefs, -, -, -⟩ := insertIdentRef_wf c .Label ⟨nm, rng⟩ hc
          rw [hdefs]
        | Function =>
          simp only [scanOne]
          obtain ⟨hwf, hle, -⟩ := insertDef_wf c .Value ⟨nm, .Var .Function, rng⟩ hc
          obtain ⟨hctx, -, -, -, -, -⟩ := insertDef_unchanged c .Value ⟨nm, .Var .Function, rng⟩
          exact ⟨hwf, by rw [hctx]; exact hw, by rw [hctx]; exact cacheMono_refl _, hle⟩
        | Variable =>
          simp only [scanOne]
          obtain ⟨hwf, hle, -⟩ := insertDef_wf c .Value ⟨nm, .Var .Variable, rng⟩ hc
          obtain ⟨hctx, -, -, -, -, -⟩ := insertDef_unchanged c .Value ⟨nm, .Var .Variable, rng⟩
          exact ⟨hwf, by rw [hctx]; exact hw, by rw [hctx]; exact cacheMono_refl _, hle⟩
        | ValRef =>
          simp only [scanOne, insertRef]
          obtain ⟨hwf, hdefs, hctx, -, -⟩ := insertIdentRef_wf c .Value ⟨nm, rng⟩ hc
          exact ⟨hwf, by rw [hctx]; exact hw, by rw [hctx]; exact cacheMono_refl _,
            by rw [hdefs]⟩
      | Mod mk =>
        cases mk with
        | PathVar =>
          simp only [scanOne]
          obtain ⟨hwf, hle, hctx⟩ := insertModule_wf c .Value ⟨nm, .Mod .PathVar, rng⟩ hc
          exact ⟨hwf, by rw [hctx]; exact hw, by rw [hctx]; exact cacheMono_refl _, hle⟩
        | ModuleAlias =>
          simp only [scanOne]
          obtain ⟨hwf, hle, hctx⟩ := insertModule_wf c .Value ⟨nm, .Mod .ModuleAlias, rng⟩ hc
          exact ⟨hwf, by rw [hctx]; exact hw, by rw [hctx]; exact cacheMono_refl _, hle⟩
        | Ident =>
          simp only [scanOne]
          cases hsrc : c.ext_src with
          | none =>
            simp only
            obtain ⟨hwf1, hle1, hlt1⟩ := insertDef_wf c .Value ⟨nm, .Mod .Ident, rng⟩ hc
            obtain ⟨hctx1, -, -, -, -, -⟩ := insertDef_unchanged c .Value ⟨nm, .Mod .Ident, rng⟩
            obtain ⟨hwf2, hdefs2, hctx2, -, -⟩ := insertExtern_wf _ nm rng
              (some (insertDef c .Value ⟨nm, .Mod .Ident, rng⟩).1) hwf1
            refine ⟨hwf2, ?_, ?_, ?_⟩
            · rw [hctx2, hctx1]; exact hw
            · rw [hctx2, hctx1]; exact cacheMono_refl _
            · rw [hdefs2]; exact hle1
          | some src =>
            simp only
            obtain ⟨hiw, himono, hiwf⟩ := ihI w c.ctx src hw
            cases hres : getDefUseInner w f c.ctx src with
            | mk ctx2 r =>
              rw [hres] at hiw himono hiwf
              cases r with
              | none =>
                simp only
                set c1 : Collector := { info := c.info, label_scope := c.label_scope, id_scope := c.id_scope, current_id := c.current_id, ext_src := some src, ctx := ctx2 } with hc1def
                have hc1wf : collWF c1 := hc
                obtain ⟨hwf1, hle1, hlt1⟩ := insertDef_wf c1 .Value ⟨nm, .Mod .Ident, rng⟩ hc1wf
                obtain ⟨hctx1, -, -, -, -, -⟩ := insertDef_unchanged c1 .Value ⟨nm, .Mod .Ident, rng⟩
                obtain ⟨hwf2, hdefs2, hctx2, -, -⟩ := insertExtern_wf _ nm rng
                  (some (insertDef c1 .Value ⟨nm, .Mod .Ident, rng⟩).1) hwf1
                refine ⟨hwf2, ?_, ?_, ?_⟩
                · rw [hctx2, hctx1]; exact hiw
                · rw [hctx2, hctx1]; exact himono
                · rw [hdefs2]; exact hle1
              | some externalInfo =>
                simp only
                set c1 : Collector := { info := c.info, label_scope := c.label_scope, id_scope := c.id_scope, current_id := c.current_id, ext_src := some src, ctx := ctx2 } with hc1def
                have hc1wf : collWF c1 := hc
                cases hexp : alLookup externalInfo.exports_defs nm with
                | none =>
                  simp only
                  obtain ⟨hwf1, hle1, hlt1⟩ := insertDef_wf c1 .Value ⟨nm, .Mod .Ident, rng⟩ hc1wf
                  obtain ⟨hctx1, -, -, -, -, -⟩ := insertDef_unchanged c1 .Value ⟨nm, .Mod .Ident, rng⟩
                  obtain ⟨hwf2, hdefs2, hctx2, -, -⟩ := insertExtern_wf _ nm rng
                    (some (insertDef c1 .Value ⟨nm, .Mod .Ident, rng⟩).1) hwf1
                  refine ⟨hwf2, ?_, ?_, ?_⟩
                  · rw [hctx2, hctx1]; exact hiw
                  · rw [hctx2, hctx1]; exact himono
                  · rw [hdefs2]; exact hle1
                | some extId =>
                  simp only
                  obtain ⟨hwf1, hle1, hctx1, -, -⟩ := importFrom_wf c1 externalInfo extId hc1wf
                  obtain ⟨hwf2, hdefs2, hctx2, -, -⟩ := insertIdentRef_wf
                    (importFrom c1 externalInfo extId) .Value ⟨nm, rng⟩ hwf1
                  obtain ⟨hwf3, hdefs3, hctx3, -, -⟩ := insertRedef_wf
                    (insertIdentRef (importFrom c1 externalInfo extId) .Value ⟨nm, rng⟩)
                    ⟨nm, .Mod .Ident, rng⟩ hwf2
                  refine ⟨by simpa only [insertRef] using hwf3, ?_, ?_, ?_⟩
                  · simp only [insertRef]; rw [hctx3, hctx2, hctx1]; exact hiw
                  · simp only [insertRef]; rw [hctx3, hctx2, hctx1]; exact himono
                  · simp only [insertRef]; rw [hdefs3, hdefs2]; exact hle1
        | Alias target =>
          simp only [scanOne]
          cases hsrc : c.ext_src with
          | none =>
            simp only
            obtain ⟨hwf1, hle1, hlt1⟩ := insertDef_wf c .Value ⟨nm, .Mod (.Alias target), rng⟩ hc
            obtain ⟨hctx1, -, -, -, -, -⟩ := insertDef_unchanged c .Value ⟨nm, .Mod (.Alias target), rng⟩
            obtain ⟨hwf2, hdefs2, hctx2, -, -⟩ := insertExtern_wf _ target.name target.range
              (some (insertDef c .Value ⟨nm, .Mod (.Alias target), rng⟩).1) hwf1
            refine ⟨hwf2, ?_, ?_, ?_⟩
            · rw [hctx2, hctx1]; exact hw
            · rw [hctx2, hctx1]; exact cacheMono_refl _
            · rw [hdefs2]; exact hle1
          | some src =>
            simp only
            obtain ⟨hiw, himono, hiwf⟩ := ihI w c.ctx src hw
            cases hres : getDefUseInner w f c.ctx src with
            | mk ctx2 r =>
              rw [hres] at hiw himono hiwf
              cases r with
              | none =>
                simp only
                set c1 : Collector := { info := c.info, label_scope := c.label_scope, id_scope := c.id_scope, current_id := c.current_id, ext_src := some src, ctx := ctx2 } with hc1def
                have hc1wf : collWF c1 := hc
                obtain ⟨hwf1, hle1, hlt1⟩ := insertDef_wf c1 .Value ⟨nm, .Mod (.Alias target), rng⟩ hc1wf
                obtain ⟨hctx1, -, -, -, -, -⟩ := insertDef_unchanged c1 .Value ⟨nm, .Mod (.Alias target), rng⟩
                obtain ⟨hwf2, hdefs2, hctx2, -, -⟩ := insertExtern_wf _ target.name target.range
                  (some (insertDef c1 .Value ⟨nm, .Mod (.Alias target), rng⟩).1) hwf1
                refine ⟨hwf2, ?_, ?_, ?_⟩
                · rw [hctx2, hctx1]; exact hiw
                · rw [hctx2, hctx1]; exact himono
                · rw [hdefs2]; exact hle1
              | some externalInfo =>
                simp only
                set c1 : Collector := { info := c.info, label_scope := c.label_scope, id_scope := c.id_scope, current_id := c.current_id, ext_src := some src, ctx := ctx2 } with hc1def
                have hc1wf : collWF c1 := hc
                cases hexp : alLookup externalInfo.exports_defs target.name with
                | none =>
                  simp only
                  obtain ⟨hwf1, hle1, hlt1⟩ := insertDef_wf c1 .Value ⟨nm, .Mod (.Alias target), rng⟩ hc1wf
                  obtain ⟨hctx1, -, -, -, -, -⟩ := insertDef_unchanged c1 .Value ⟨nm, .Mod (.Alias target), rng⟩
                  obtain ⟨hwf2, hdefs2, hctx2, -, -⟩ := insertExtern_wf _ target.name target.range
                    (some (insertDef c1 .Value ⟨nm, .Mod (.Alias target), rng⟩).1) hwf1
                  refine ⟨hwf2, ?_, ?_, ?_⟩
                  · rw [hctx2, hctx1]; exact hiw
                  · rw [hctx2, hctx1]; exact himono
                  · rw [hdefs2]; exact hle1
                | some extId =>
                  simp only
                  obtain ⟨hwf1, hle1, hctx1, -, -⟩ := importFrom_wf c1 externalInfo extId hc1wf
                  obtain ⟨hwf2, hdefs2, hctx2, -, -⟩ := insertIdentRef_wf
                    (importFrom c1 externalInfo extId) .Value target hwf1
                  obtain ⟨hwf3, hle3, hlt3⟩ := insertDef_wf
                    (insertIdentRef (importFrom c1 externalInfo extId) .Value target)
                    .Value ⟨nm, .Mod (.Alias target), rng⟩ hwf2
                  obtain ⟨hctx3, -, -, -, -, -⟩ := insertDef_unchanged
                    (insertIdentRef (importFrom c1 externalInfo extId) .Value target)
                    .Value ⟨nm, .Mod (.Alias target), rng⟩
                  refine ⟨hwf3, ?_, ?_, ?_⟩
                  · rw [hctx3, hctx2, hctx1]; exact hiw
                  · rw [hctx3, hctx2, hctx1]; exact himono
                  · rw [hdefs2] at hle3
                    exact Nat.le_trans hle1 hle3
        | Module msrc =>
          simp only [scanOne]
          cases msrc with
          | Expr =>
            simp only
            cases ch with
            | none =>
              simp only
              exact ⟨hc, hw, cacheMono_refl _, Nat.le_refl _⟩
            | some cs =>
              simp only
              obtain ⟨h1wf, h1cw, h1mono, h1le⟩ := ihL w c cs hc hw
              cases hsl : scanList w f c cs with
              | mk c1 r =>
                rw [hsl] at h1wf h1cw h1mono h1le
                cases r with
                | some u => exact ⟨h1wf, h1cw, h1mono, h1le⟩
                | none => exact ⟨h1wf, h1cw, h1mono, h1le⟩
          | Path p =>
            simp only
            set cA : Collector := { c with ext_src := w.resolve c.current_id p } with hcA
            have hcAwf : collWF cA := hc
            cases ch with
            | none =>
              simp only
              exact ⟨hcAwf, hw, cacheMono_refl _, Nat.le_refl _⟩
            | some cs =>
              simp only
              obtain ⟨h1wf, h1cw, h1mono, h1le⟩ := ihL w cA cs hcAwf hw
              cases hsl : scanList w f cA cs with
              | mk c1 r =>
                rw [hsl] at h1wf h1cw h1mono h1le
                cases r with
                | some u => exact ⟨h1wf, h1cw, h1mono, h1le⟩
                | none => exact ⟨h1wf, h1cw, h1mono, h1le⟩
        | Star =>
          simp only [scanOne]
          cases hsrc : c.ext_src with
          | none =>
            simp only
            exact ⟨hc, hw, cacheMono_refl _, Nat.le_refl _⟩
          | some src =>
            simp only
            obtain ⟨hiw, himono, hiwf⟩ := ihI w c.ctx src hw
            cases hres : getDefUseInner w f c.ctx src with
            | mk ctx2 r =>
              rw [hres] at hiw himono hiwf
              cases r with
              | none =>
                simp only
                exact ⟨hc, hiw, himono, Nat.le_refl _⟩
              | some externalInfo =>
                simp only
                set c1 : Collector := { info := c.info, label_scope := c.label_scope, id_scope := c.id_scope, current_id := c.current_id, ext_src := some src, ctx := ctx2 } with hc1def
                have hc1wf : collWF c1 := hc
                obtain ⟨hfwf, hfle, hfctx⟩ :=
                  importFromFold_wf externalInfo externalInfo.exports_refs c1 hc1wf
                refine ⟨hfwf, ?_, ?_, hfle⟩
                · rw [hfctx]; exact hiw
                · rw [hfctx]; exact himono
    have stepL : PList (f + 1) := by
      intro w c es hc hw
      cases es with
      | nil =>
        simp only [scanList]
        exact ⟨hc, hw, cacheMono_refl _, Nat.le_refl _⟩
      | cons e rest =>
        simp only [scanList]
        obtain ⟨h1wf, h1cw, h1mono, h1le⟩ := ihO w c e hc hw
        cases h1 : scanOne w f c e with
        | mk c1 r =>
          rw [h1] at h1wf h1cw h1mono h1le
          cases r with
          | some u =>
            simp only
            obtain ⟨h2wf, h2cw, h2mono, h2le⟩ := ihL w c1 rest h1wf h1cw
            exact ⟨h2wf, h2cw, cacheMono_trans h1mono h2mono, Nat.le_trans h1le h2le⟩
          | none =>
            simp only
            exact ⟨h1wf, h1cw, h1mono, h1le⟩
    exact ⟨stepI, stepL, stepO⟩

/-! ## Search-context stability helpers -/

theorem insertIdentRef_ctx (c : Collector) (ns : Ns) (r : IdentRef) :
    (insertIdentRef c ns r).ctx = c.ctx := by
  unfold insertIdentRef; split <;> rfl

theorem insertRedef_ctx (c : Collector) (i : LexicalInfo) :
    (insertRedef c i).ctx = c.ctx := by
  unfold insertRedef; split <;> rfl

theorem insertExtern_ctx (c : Collector) (nm : String) (rng : Rng)
    (rid : Option DefId) : (insertExtern c nm rng rid).ctx = c.ctx := by
  unfold insertExtern; split <;> rfl

theorem insertModule_ctx (c : Collector) (ns : Ns) (i : LexicalInfo) :
    (insertModule c ns i).ctx = c.ctx := by
  have h := (insertDef_unchanged c ns i).1
  cases hsrc : (insertDef c ns i).2.ext_src <;> simp only [insertModule, hsrc] <;> exact h

theorem importFrom_ctx (c : Collector) (e : DefUseInfo) (v : DefId) :
    (importFrom c e v).ctx = c.ctx := by
  unfold importFrom; split <;> rfl

theorem importFromFold_ctx (e : DefUseInfo) (l : List DefId) (c : Collector) :
    (l.foldl (fun acc v => importFrom acc e v) c).ctx = c.ctx := by
  induction l generalizing c with
  | nil => rfl
  | cons v t ih => rw [List.foldl_cons, ih, importFrom_ctx]

/-! ## Index-map lookup characterization -/

theorem imFindIdx_get_key {α β : Type} [DecidableEq α] (l : List (α × β)) (k : α)
    (i : Nat) (h : imFindIdx l k = some i) :
    ∀ kv, l.get? i = some kv → kv.1 = k := by
  induction l generalizing i with
  | nil => simp [imFindIdx] at h
  | cons q t ih =>
    obtain ⟨a, b⟩ := q
    simp only [imFindIdx] at h
    split at h
    · rename_i heq
      cases h
      intro kv hkv
      simp only [List.get?] at hkv
      cases hkv
      exact heq
    · rcases Option.map_eq_some'.1 h with ⟨j, hj, rfl⟩
      intro kv hkv
      simp only [List.get?] at hkv
      exact ih j hj kv hkv

theorem imFindIdx_setAt {α β : Type} [DecidableEq α] (l : List (α × β)) (j : Nat)
    (v : β) (k : α) : imFindIdx (imSetAt l j v) k = imFindIdx l k := by
  induction l generalizing j with
  | nil => simp [imSetAt]
  | cons q t ih =>
    obtain ⟨a, b⟩ := q
    cases j with
    | zero => simp [imSetAt, imFindIdx]
    | succ m => simp [imSetAt, imFindIdx, ih]

theorem imSetAt_get_self {α β : Type} (l : List (α × β)) (i : Nat) (v : β)
    (kv : α × β) (h : l.get? i = some kv) :
    (imSetAt l i v).get? i = some (kv.1, v) := by
  induction l generalizing i with
  | nil => simp [List.get?] at h
  | cons q t ih =>
    obtain ⟨a, b⟩ := q
    cases i with
    | zero =>
      simp only [List.get?] at h
      cases h
      rfl
    | succ m =>
      simp only [List.get?] at h
      simpa [imSetAt, List.get?] using ih m h

theorem imFindIdx_append_self {α β : Type} [DecidableEq α] (l : List (α × β))
    (k : α) (v : β) (h : imFindIdx l k = none) :
    imFindIdx (l ++ [(k, v)]) k = some l.length := by
  induction l with
  | nil => simp [imFindIdx]
  | cons q t ih =>
    obtain ⟨a, b⟩ := q
    simp only [imFindIdx] at h
    split at h
    · cases h
    · rename_i hne
      have ht := ih (Option.map_eq_none'.1 h)
      simp [imFindIdx, if_neg hne, ht]

/-- After `insert_full`, the key is found at the returned index and the
slot holds the key together with the new value. -/
theorem imInsertFull_lookup {α β : Type} [DecidableEq α] (l : List (α × β))
    (k : α) (v : β) :
    imFindIdx (imInsertFull l k v).2 k = some (imInsertFull l k v).1 ∧
    (imInsertFull l k v).2.get? (imInsertFull l k v).1 = some (k, v) := by
  unfold imInsertFull
  cases hfind : imFindIdx l k with
  | some i =>
    simp only
    have hi := imFindIdx_lt_length l k i hfind
    have hkv : ∃ kv, l.get? i = some kv := by
      rw [List.get?_eq_getElem?, List.getElem?_eq_getElem hi]
      exact ⟨_, rfl⟩
    obtain ⟨kv, hkv⟩ := hkv
    constructor
    · rw [imFindIdx_setAt]
      exact hfind
    · rw [imSetAt_get_self l i v kv hkv, imFindIdx_get_key l k i hfind kv hkv]
  | none =>
    simp only
    refine ⟨imFindIdx_append_self l k v hfind, ?_⟩
    rw [List.get?_eq_getElem?]
    exact List.getElem?_concat_length l (k, v)

theorem mem_keys_findIdx {α β : Type} [DecidableEq α] (l : List (α × β)) (k : α)
    (h : k ∈ l.map Prod.fst) : ∃ i, imFindIdx l k = some i := by
  cases hfind : imFindIdx l k with
  | some i => exact ⟨i, rfl⟩
  | none => exact absurd h (imFindIdx_none l k hfind)

/-! ## Cache-installation lookup lemmas -/

theorem alLookup_cacheInstall_self {cache : List (TypstFileId × DefUseInfo)}
    {fid : TypstFileId} {info : DefUseInfo} (h : alLookup cache fid = none) :
    alLookup (cacheInstall cache fid info) fid = some info := by
  unfold cacheInstall
  rw [h]
  simp [alLookup]

theorem alLookup_cacheInstall_ne {cache : List (TypstFileId × DefUseInfo)}
    {fid fid0 : TypstFileId} {info : DefUseInfo} (h : fid ≠ fid0) :
    alLookup (cacheInstall cache fid0 info) fid = alLookup cache fid := by
  unfold cacheInstall
  split
  · rfl
  · simp only [alLookup, if_neg (Ne.symm h)]

/-! ## Scope lookup lemmas -/

theorem scopeGet_insert_self (s : ScopeStack) (n : String) (d : DefId) :
    scopeGet (scopeInsert s n d) n = some d := by
  simp [scopeGet, scopeInsert, alLookup]

theorem scopeGet_insert_ne (s : ScopeStack) (n m : String) (d : DefId)
    (h : m ≠ n) : scopeGet (scopeInsert s n d) m = scopeGet s m := by
  simp only [scopeGet, scopeInsert, alLookup, if_neg (Ne.symm h)]

theorem scopeGet_insert_isSome (s : ScopeStack) (n m : String) (d : DefId)
    (h : (scopeGet s n).isSome = true) :
    (scopeGet (scopeInsert s m d) n).isSome = true := by
  by_cases hnm : n = m
  · subst hnm
    rw [scopeGet_insert_self]
    rfl
  · rw [scopeGet_insert_ne s m n d hnm]
    exact h

/-! ## Star-import copy lemmas -/

theorem importFrom_keys_mono (c : Collector) (e : DefUseInfo) (v : DefId)
    (a : TypstFileId × IdentRef) (h : a ∈ c.info.ident_defs.map Prod.fst) :
    a ∈ (importFrom c e v).info.ident_defs.map Prod.fst := by
  unfold importFrom
  split
  · exact h
  · exact imInsertFull_keys_mono _ _ _ _ h

theorem importFrom_scope_isSome (c : Collector) (e : DefUseInfo) (v : DefId)
    (n : String) (h : (scopeGet c.id_scope n).isSome = true) :
    (scopeGet (importFrom c e v).id_scope n).isSome = true := by
  unfold importFrom
  split
  · exact h
  · exact scopeGet_insert_isSome _ _ _ _ h

theorem importFrom_inserts (c : Collector) (e : DefUseInfo) (v : DefId)
    (kv : (TypstFileId × IdentRef) × IdentDef) (h : e.ident_defs.get? v = some kv) :
    ((kv.1.1, (⟨kv.2.name, kv.2.range⟩ : IdentRef))
        ∈ (importFrom c e v).info.ident_defs.map Prod.fst) ∧
    (scopeGet (importFrom c e v).id_scope kv.2.name).isSome = true := by
  obtain ⟨⟨extId, ref⟩, sym⟩ := kv
  simp only [importFrom, h]
  constructor
  · exact imInsertFull_key_mem _ _ _
  · rw [scopeGet_insert_self]
    rfl

theorem importFromFold_mem (e : DefUseInfo) (l : List DefId) (c : Collector)
    (v : DefId) (hv : v ∈ l) (kv : (TypstFileId × IdentRef) × IdentDef)
    (h : e.ident_defs.get? v = some kv) :
    ((kv.1.1, (⟨kv.2.name, kv.2.range⟩ : IdentRef))
        ∈ (l.foldl (fun acc u => importFrom acc e u) c).info.ident_defs.map Prod.fst) ∧
    (scopeGet (l.foldl (fun acc u => importFrom acc e u) c).id_scope kv.2.name).isSome
        = true := by
  induction l generalizing c with
  | nil => cases hv
  | cons u t ih =>
    rw [List.foldl_cons]
    rcases List.mem_cons.1 hv with rfl | hv
    · obtain ⟨h1, h2⟩ := importFrom_inserts c e v kv h
      clear ih
      constructor
      · -- key membership is preserved by the remaining copies
        have : ∀ (t : List DefId) (c0 : Collector)
            (ha : (kv.1.1, (⟨kv.2.name, kv.2.range⟩ : IdentRef))
              ∈ c0.info.ident_defs.map Prod.fst),
            (kv.1.1, (⟨kv.2.name, kv.2.range⟩ : IdentRef))
              ∈ (t.foldl (fun acc u => importFrom acc e u) c0).info.ident_defs.map
                  Prod.fst := by
          intro t
          induction t with
          | nil => exact fun c0 ha => ha
          | cons u2 t2 ih2 =>
            intro c0 ha
            exact ih2 _ (importFrom_keys_mono c0 e u2 _ ha)
        exact this t _ h1
      · have : ∀ (t : List DefId) (c0 : Collector)
            (ha : (scopeGet c0.id_scope kv.2.name).isSome = true),
            (scopeGet (t.foldl (fun acc u => importFrom acc e u) c0).id_scope
              kv.2.name).isSome = true := by
          intro t
          induction t with
          | nil => exact fun c0 ha => ha
          | cons u2 t2 ih2 =>
            intro c0 ha
            exact ih2 _ (importFrom_scope_isSome c0 e u2 _ ha)
        exact this t _ h2
    · exact ih _ hv

/-! ## Search-context stability theorem -/

theorem ctxStable_refl (a : SearchCtx) : ctxStable a a :=
  ⟨fun _ hf => hf, fun _ hp => hp, fun _ _ hl => hl⟩

theorem ctxStable_of_eq {a b : SearchCtx} (h : b = a) : ctxStable a b := by
  subst h; exact ctxStable_refl _

theorem ctxStable_trans {a b c : SearchCtx} (h1 : ctxStable a b) (h2 : ctxStable b c) :
    ctxStable a c :=
  ⟨fun fid hf => h2.1 fid (h1.1 fid hf),
   fun p hp => h2.2.1 p (h1.2.1 p hp),
   fun fid hf hl => h2.2.2 fid (h1.1 fid hf) (h1.2.2 fid hf hl)⟩

theorem searchedStable : ∀ fuel : Nat, QInner fuel ∧ QList fuel ∧ QOne fuel := by
  intro fuel
  induction fuel with
  | zero =>
    exact ⟨fun w ctx fid0 => ctxStable_refl _, fun w c es => ctxStable_refl _,
      fun w c e => ctxStable_refl _⟩
  | succ f ih =>
    obtain ⟨ihI, ihL, ihO⟩ := ih
    have stepI : QInner (f + 1) := by
      intro w ctx fid0
      simp only [getDefUseInner]
      cases hc : alLookup ctx.cache fid0 with
      | some info => exact ctxStable_refl _
      | none =>
        simp only
        by_cases hs : fid0 ∈ ctx.searched
        · simp only [if_pos hs]
          exact ctxStable_refl _
        · simp only [if_neg hs]
          cases hh : alLookup w.files fid0 with
          | none =>
            simp only
            exact ⟨fun fid hf => List.mem_cons_of_mem _ hf, fun p hp => hp,
              fun fid hf hl => hl⟩
          | some hier =>
            simp only
            set ctx1 : SearchCtx := { ctx with searched := fid0 :: ctx.searched } with hctx1
            have hstep1 : ctxStable ctx ctx1 :=
              ⟨fun fid hf => List.mem_cons_of_mem _ hf, fun p hp => hp,
                fun fid hf hl => hl⟩
            have h2 := ihL w (initColl fid0 ctx1) hier
            have hstep2 : ctxStable ctx1 (scanList w f (initColl fid0 ctx1) hier).1.ctx := h2
            set c1 := (scanList w f (initColl fid0 ctx1) hier).1 with hc1
            have h3 : (calcExports c1).ctx = c1.ctx := rfl
            refine ⟨?_, ?_, ?_⟩
            · intro fid hf
              exact hstep2.1 fid (hstep1.1 fid hf)
            · intro p hp
              exact cacheInstall_mono p (hstep2.2.1 p (hstep1.2.1 p hp))
            · intro fid hf hl
              have hne : fid ≠ fid0 := fun heq => hs (heq ▸ hf)
              rw [alLookup_cacheInstall_ne hne]
              exact hstep2.2.2 fid (hstep1.1 fid hf) (hstep1.2.2 fid hf hl)
    have stepO : QOne (f + 1) := by
      intro w c e
      obtain ⟨i, ch⟩ := e
      obtain ⟨nm, ki, rng⟩ := i
      cases ki with
      | Heading lvl =>
        simp only [scanOne]
        exact ctxStable_refl _
      | Block =>
        cases ch with
        | none =>
          simp only [scanOne]
          exact ctxStable_refl _
        | some cs =>
          simp only [scanOne]
          exact ihL w c cs
      | Var vk =>
        cases vk with
        | Label =>
          simp only [scanOne]
          exact ctxStable_of_eq (insertDef_unchanged c .Label ⟨nm, .Var .Label, rng⟩).1
        | LabelRef =>
          simp only [scanOne, insertRef]
          exact ctxStable_of_eq (insertIdentRef_ctx c .Label ⟨nm, rng⟩)
        | Function =>
          simp only [scanOne]
          exact ctxStable_of_eq (insertDef_unchanged c .Value ⟨nm, .Var .Function, rng⟩).1
        | Variable =>
          simp only [scanOne]
          exact ctxStable_of_eq (insertDef_unchanged c .Value ⟨nm, .Var .Variable, rng⟩).1
        | ValRef =>
          simp only [scanOne, insertRef]
          exact ctxStable_of_eq (insertIdentRef_ctx c .Value ⟨nm, rng⟩)
      | Mod mk =>
        cases mk with
        | PathVar =>
          simp only [scanOne]
          exact ctxStable_of_eq (insertModule_ctx c .Value ⟨nm, .Mod .PathVar, rng⟩)
        | ModuleAlias =>
          simp only [scanOne]
          exact ctxStable_of_eq (insertModule_ctx c .Value ⟨nm, .Mod .ModuleAlias, rng⟩)
        | Ident =>
          simp only [scanOne]
          cases hsrc : c.ext_src with
          | none =>
            simp only
            exact ctxStable_of_eq
              (by rw [insertExtern_ctx, (insertDef_unchanged c .Value ⟨nm, .Mod .Ident, rng⟩).1])
          | some src =>
            simp only
            have hstep := ihI w c.ctx src
            cases hres : getDefUseInner w f c.ctx src with
            | mk ctx2 r =>
              rw [hres] at hstep
              cases r with
              | none =>
                simp only
                exact ctxStable_trans hstep (ctxStable_of_eq
                  (by rw [insertExtern_ctx, (insertDef_unchanged _ .Value ⟨nm, .Mod .Ident, rng⟩).1]))
              | some externalInfo =>
                simp only
                cases hexp : alLookup externalInfo.exports_defs nm with
                | none =>
                  simp only
                  exact ctxStable_trans hstep (ctxStable_of_eq
                    (by rw [insertExtern_ctx, (insertDef_unchanged _ .Value ⟨nm, .Mod .Ident, rng⟩).1]))
                | some extId =>
                  simp only
                  exact ctxStable_trans hstep (ctxStable_of_eq
                    (by rw [insertRedef_ctx, insertRef, insertIdentRef_ctx, importFrom_ctx]))
        | Alias target =>
          simp only [scanOne]
          cases hsrc : c.ext_src with
          | none =>
            simp only
            exact ctxStable_of_eq
              (by rw [insertExtern_ctx, (insertDef_unchanged c .Value ⟨nm, .Mod (.Alias target), rng⟩).1])
          | some src =>
            simp only
            have hstep := ihI w c.ctx src
            cases hres : getDefUseInner w f c.ctx src with
            | mk ctx2 r =>
              rw [hres] at hstep
              cases r with
              | none =>
                simp only
                exact ctxStable_trans hstep (ctxStable_of_eq
                  (by rw [insertExtern_ctx, (insertDef_unchanged _ .Value ⟨nm, .Mod (.Alias target), rng⟩).1]))
              | some externalInfo =>
                simp only
                cases hexp : alLookup externalInfo.exports_defs target.name with
                | none =>
                  simp only
                  exact ctxStable_trans hstep (ctxStable_of_eq
                    (by rw [insertExtern_ctx, (insertDef_unchanged _ .Value ⟨nm, .Mod (.Alias target), rng⟩).1]))
                | some extId =>
                  simp only
                  exact ctxStable_trans hstep (ctxStable_of_eq
                    (by rw [(insertDef_unchanged _ .Value ⟨nm, .Mod (.Alias target), rng⟩).1,
                        insertIdentRef_ctx, importFrom_ctx]))
        | Module msrc =>
          simp only [scanOne]
          cases msrc with
          | Expr =>
            simp only
            cases ch with
            | none =>
              simp only
              exact ctxStable_refl _
            | some cs =>
              simp only
              have hstep := ihL w c cs
              cases hsl : scanList w f c cs with
              | mk c1 r =>
                rw [hsl] at hstep
                cases r with
                | some u => exact hstep
                | none => exact hstep
          | Path p =>
            simp only
            set cA : Collector := { c with ext_src := w.resolve c.current_id p } with hcA
            cases ch with
            | none =>
              simp only
              exact ctxStable_refl _
            | some cs =>
              simp only
              have hstep : ctxStable c.ctx (scanList w f cA cs).1.ctx := ihL w cA cs
              cases hsl : scanList w f cA cs with
              | mk c1 r =>
                rw [hsl] at hstep
                cases r with
                | some u => exact hstep
                | none => exact hstep
        | Star =>
          simp only [scanOne]
          cases hsrc : c.ext_src with
          | none =>
            simp only
            exact ctxStable_refl _
          | some src =>
            simp only
            have hstep := ihI w c.ctx src
            cases hres : getDefUseInner w f c.ctx src with
            | mk ctx2 r =>
              rw [hres] at hstep
              cases r with
              | none =>
                simp only
                exact hstep
              | some externalInfo =>
                simp only
                exact ctxStable_trans hstep
                  (ctxStable_of_eq (importFromFold_ctx externalInfo externalInfo.exports_refs _))
    have stepL : QList (f + 1) := by
      intro w c es
      cases es with
      | nil =>
        simp only [scanList]
        exact ctxStable_refl _
      | cons e rest =>
        simp only [scanList]
        have h1 := ihO w c e
        cases h1s : scanOne w f c e with
        | mk c1 r =>
          rw [h1s] at h1
          cases r with
          | some u =>
            simp only
            exact ctxStable_trans h1 (ihL w c1 rest)
          | none =>
            simp only
            exact h1
    exact ⟨stepI, stepL, stepO⟩

/-! ## Serializer lemmas -/

theorem identLe_total (a b : IdentRef) : identLe a b ∨ identLe b a := by
  rcases lt_trichotomy a.name b.name with h | h | h
  · exact .inl (.inl h)
  · rcases Nat.le_total a.range.start b.range.start with h2 | h2
    · exact .inl (.inr ⟨h, h2⟩)
    · exact .inr (.inr ⟨h.symm, h2⟩)
  · exact .inr (.inl h)

theorem identLe_trans {a b c : IdentRef} (h1 : identLe a b) (h2 : identLe b c) :
    identLe a c := by
  rcases h1 with h1 | ⟨h1e, h1s⟩
  · rcases h2 with h2 | ⟨h2e, h2s⟩
    · exact .inl (lt_trans h1 h2)
    · exact .inl (h2e ▸ h1)
  · rcases h2 with h2 | ⟨h2e, h2s⟩
    · exact .inl (h1e ▸ h2)
    · exact .inr ⟨h1e.trans h2e, Nat.le_trans h1s h2s⟩

theorem mem_insSorted {x z : IdentRef} {l : List IdentRef}
    (h : z ∈ insSorted x l) : z = x ∨ z ∈ l := by
  induction l with
  | nil => simpa [insSorted] using h
  | cons y ys ih =>
    simp only [insSorted] at h
    split at h
    · rcases List.mem_cons.1 h with h1 | h1
      · exact .inl h1
      · exact .inr h1
    · rcases List.mem_cons.1 h with h1 | h1
      · exact .inr (h1 ▸ List.mem_cons_self _ _)
      · rcases ih h1 with h2 | h2
        · exact .inl h2
        · exact .inr (List.mem_cons_of_mem _ h2)

theorem pairwise_insSorted {x : IdentRef} {l : List IdentRef}
    (h : l.Pairwise identLe) : (insSorted x l).Pairwise identLe := by
  induction l with
  | nil => simp [insSorted]
  | cons y ys ih =>
    simp only [insSorted]
    split
    · rename_i hxy
      refine List.Pairwise.cons ?_ h
      intro z hz
      rcases List.mem_cons.1 hz with rfl | hz
      · exact hxy
      · exact identLe_trans hxy (List.rel_of_pairwise_cons h hz)
    · rename_i hxy
      have hyx : identLe y x := by
        rcases identLe_total x y with h1 | h1
        · exact absurd h1 hxy
        · exact h1
      refine List.Pairwise.cons ?_ (ih (List.Pairwise.sublist (List.sublist_cons_self y ys) h))
      intro z hz
      rcases mem_insSorted hz with rfl | hz
      · exact hyx
      · exact List.rel_of_pairwise_cons h hz

theorem sortRefs_sorted (l : List IdentRef) : (sortRefs l).Pairwise identLe := by
  induction l with
  | nil => simp [sortRefs]
  | cons x t ih => exact pairwise_insSorted ih

theorem alLookup_groupPush (m : List (DefId × List IdentRef)) (d : DefId)
    (r : IdentRef) (k : DefId) :
    alLookup (groupPush m d r) k =
      if k = d then some (((alLookup m d).getD []) ++ [r]) else alLookup m k := by
  induction m with
  | nil =>
    by_cases hkd : k = d
    · subst hkd
      simp [groupPush, alLookup]
    · have hdk : ¬ d = k := fun h => hkd (Eq.symm h)
      simp [groupPush, alLookup, hkd, hdk]
  | cons q t ih =>
    obtain ⟨a, v⟩ := q
    simp only [groupPush]
    by_cases had : a = d
    · subst had
      simp only [if_pos rfl, alLookup]
      by_cases hak : a = k
      · subst hak
        simp [alLookup]
      · have hka : ¬ k = a := fun h => hak h.symm
        simp [alLookup, hak, hka]
    · simp only [if_neg had, alLookup, ih]
      by_cases hak : a = k
      · subst hak
        have hkd : ¬ a = d := had
        simp [hkd]
      · simp [hak]

theorem alLookup_buildFold (l : List (IdentRef × DefId))
    (m : List (DefId × List IdentRef)) (k : DefId) :
    (alLookup (l.foldl (fun m p => groupPush m p.2 p.1) m) k).getD [] =
      ((alLookup m k).getD []) ++ (l.filter (fun p => p.2 = k)).map Prod.fst := by
  induction l generalizing m with
  | nil => simp
  | cons p t ih =>
    obtain ⟨r, d⟩ := p
    rw [List.foldl_cons, ih]
    by_cases hkd : k = d
    · subst hkd
      rw [alLookup_groupPush]
      simp [List.append_assoc]
    · rw [alLookup_groupPush, if_neg hkd]
      have : ¬ (d = k) := fun h => hkd h.symm
      simp [List.filter_cons, this]

theorem refGroups_eq_getRefs (info : DefUseInfo) (k : DefId) :
    (alLookup (buildRefGroups info.ident_refs) k).getD [] = getRefs info k := by
  unfold buildRefGroups getRefs
  rw [alLookup_buildFold]
  simp [alLookup]

theorem serMain_length (info : DefUseInfo) :
    (serMain info).length = info.ident_defs.length := by
  simp [serMain, List.enum_length]

theorem serialize_length (info : DefUseInfo) :
    (serialize info).length =
      info.ident_defs.length + (if info.undefined_refs = [] then 0 else 1) := by
  unfold serialize
  rw [List.length_append, serMain_length]
  split <;> simp

theorem serialize_get_main (info : DefUseInfo) (k : Nat)
    (kv : (TypstFileId × IdentRef) × IdentDef)
    (h : info.ident_defs.get? k = some kv) :
    (serialize info).get? k =
      some (serKey kv.1, { defn := kv.2, refs := sortRefs (getRefs info k) }) := by
  have hk : k < info.ident_defs.length := by
    rw [← getq_isSome_iff]
    rw [h]
    rfl
  have henum : info.ident_defs.enum[k]? = some (k, kv) := by
    have he := List.getElem?_enumFrom 0 info.ident_defs k
    simp only [List.enum] at *
    rw [he, ← List.get?_eq_getElem?, h]
    simp
  unfold serialize
  rw [List.get?_eq_getElem?, List.getElem?_append_left
    (by rw [serMain_length]; exact hk)]
  unfold serMain
  rw [List.getElem?_map, henum]
  simp only [Option.map_some']
  rw [refGroups_eq_getRefs]

theorem serialize_get_nil (info : DefUseInfo) (h : info.undefined_refs ≠ []) :
    (serialize info).get? info.ident_defs.length =
      some ("<nil>", { defn := nilDef, refs := sortRefs info.undefined_refs }) := by
  unfold serialize
  simp only [if_neg h]
  rw [List.get?_eq_getElem?, ← serMain_length info]
  exact List.getElem?_concat_length _ _

theorem serialize_refs_sorted (info : DefUseInfo) (k : Nat) (ent : String × SerEntry)
    (h : (serialize info).get? k = some ent) : ent.2.refs.Pairwise identLe := by
  have hm : ent ∈ serialize info := List.get?_mem h
  unfold serialize serMain at hm
  rcases List.mem_append.1 hm with hm | hm
  · rcases List.mem_map.1 hm with ⟨p, hp, rfl⟩
    exact sortRefs_sorted _
  · split at hm
    · cases hm
    · rcases List.mem_singleton.1 hm with rfl
      exact sortRefs_sorted _

/-! ## Claim theorems -/

/-- C3: DefId values are dense and contiguous with the definition-table
size — throughout a scan, every DefId held in the reference, redefinition
and export tables and in both scopes is a valid 0-based index below the
table length, and the (file, IdentRef) keys are unique (`collWF`); and
inserting a definition whose (file, IdentRef) key already exists returns
the existing DefId and allocates no new slot (`imInsertFull` on an
existing key). -/
theorem C3_defid_dense_key_unique :
    (∀ (l : List ((TypstFileId × IdentRef) × IdentDef)) (k : TypstFileId × IdentRef)
        (v : IdentDef) (i : Nat), imFindIdx l k = some i →
        (imInsertFull l k v).1 = i ∧ (imInsertFull l k v).2.length = l.length) ∧
    (∀ (w : World) (fuel : Nat) (c : Collector) (es : List LexicalHierarchy),
        collWF c → cacheWF c.ctx → collWF (scanList w fuel c es).1) := by
  constructor
  · intro l k v i h
    exact imInsertFull_existing l k v i h
  · intro w fuel c es hc hw
    exact ((masterWF fuel).2.1 w c es hc hw).1

/-- Witness for C3 at concrete inputs: re-inserting the only existing key
keeps index 0 and table length 1, and a small scan preserves the
collector invariant. -/
theorem C3_witness :
    ((imInsertFull [(xKey, xDefV)] xKey xDefF).1 = 0 ∧
      (imInsertFull [(xKey, xDefV)] xKey xDefF).2.length = 1) ∧
    collWF (scanList wExp 5 (cW none) [vnode "x" 0 1]).1 := by
  constructor
  · have h := C3_defid_dense_key_unique.1 [(xKey, xDefV)] xKey xDefF 0 (by decide)
    exact ⟨h.1, h.2⟩
  · exact C3_defid_dense_key_unique.2 wExp 5 (cW none) [vnode "x" 0 1]
      (by decide) (by decide)

/-- C4: reference soundness — for every entry (r, d) in the reference
table of a table produced by `getDefUseInner`, `get_def_by_id d`
succeeds. -/
theorem C4_reference_soundness (w : World) (fuel : Nat) (ctx : SearchCtx)
    (fid : TypstFileId) (info : DefUseInfo) (hw : cacheWF ctx)
    (hres : (getDefUseInner w fuel ctx fid).2 = some info)
    (r : IdentRef) (d : DefId) (hmem : (r, d) ∈ info.ident_refs) :
    (getDefById info d).isSome = true := by
  have hinfo := ((masterWF fuel).1 w ctx fid hw).2.2 info hres
  have hd := hinfo.2.1 (r, d) hmem
  unfold getDefById
  rw [Option.isSome_map']
  rw [getq_isSome_iff]
  exact hd

/-- Witness for C4: the reference `x@5..6` in `a.typ`'s computed table
points at slot 0, and `get_def_by_id 0` succeeds. -/
theorem C4_witness : (getDefById impInfoA 0).isSome = true :=
  C4_reference_soundness wImp 10 emptyCtx fidA impInfoA (by decide) (by decide)
    ⟨"x", ⟨5, 6⟩⟩ 0 (by decide)

/-- C9: each registration into the external-reference table stores a fresh
single-element list replacing any previous list under that key
(`insert_module` and `insert_extern` both use `HashMap::insert` with a
`vec![...]` of one element), every list in a produced table has exactly
one entry, and `get_external_refs` yields exactly the stored list. -/
theorem C9_external_refs_single_entry :
    (∀ (c : Collector) (ns : Ns) (i : LexicalInfo) (src : TypstFileId),
        c.ext_src = some src →
        alLookup (insertModule c ns i).info.external_refs (src, none) =
          some [(none, ⟨i.name, i.range⟩)]) ∧
    (∀ (c : Collector) (nm : String) (rng : Rng) (rid : Option DefId)
        (src : TypstFileId), c.ext_src = some src →
        alLookup (insertExtern c nm rng rid).info.external_refs (src, some nm) =
          some [(rid, ⟨nm, rng⟩)]) ∧
    (∀ (w : World) (fuel : Nat) (ctx : SearchCtx) (fid : TypstFileId)
        (info : DefUseInfo), cacheWF ctx →
        (getDefUseInner w fuel ctx fid).2 = some info →
        ∀ k l, (k, l) ∈ info.external_refs → l.length = 1) ∧
    (∀ (info : DefUseInfo) (fid : TypstFileId) (onm : Option String)
        (l : List (Option DefId × IdentRef)),
        alLookup info.external_refs (fid, onm) = some l →
        getExternalRefs info fid onm = l) := by
  refine ⟨?_, ?_, ?_, ?_⟩
  · intro c ns i src hsrc
    have hext : (insertDef c ns i).2.ext_src = some src := by
      rw [(insertDef_unchanged c ns i).2.2.1, hsrc]
    simp only [insertModule, hext]
    exact alLookup_alInsert_self _ _ _
  · intro c nm rng rid src hsrc
    simp only [insertExtern, hsrc]
    exact alLookup_alInsert_self _ _ _
  · intro w fuel ctx fid info hw hres k l hmem
    have hinfo := ((masterWF fuel).1 w ctx fid hw).2.2 info hres
    exact hinfo.2.2.2.2.2 (k, l) hmem
  · intro info fid onm l h
    unfold getExternalRefs
    rw [h]
    rfl

/-- Witness for C9: registering `z` against `b.typ` stores exactly the
single recorded entry, retrievable by lookup. -/
theorem C9_witness :
    alLookup (insertExtern (cW (some fidB)) "z" ⟨7, 8⟩ (some 0)).info.external_refs
      (fidB, some "z") = some [(some 0, ⟨"z", ⟨7, 8⟩⟩)] :=
  C9_external_refs_single_entry.2.1 (cW (some fidB)) "z" ⟨7, 8⟩ (some 0) fidB rfl

/-- C7: block scoping is snapshot-and-rollback on the Value namespace
only — after scanning a Block node the Value scope is exactly the scope
from before the block (bindings made inside are invisible, bindings from
before persist), while the Label scope is whatever scanning the block's
children produced (never rolled back, so labels are file-global); and
within the block an insertion shadows only its own name.  The claim is
settled against `SnapshotMap` modelled from spec 4.1, since
`crate::adt::snapshot_map` is not among the available sources. -/
theorem C7_block_scoping (w : World) (fuel : Nat) (c : Collector) (i : LexicalInfo)
    (cs : List LexicalHierarchy) (hki : i.kind = .Block) :
    (scanOne w (fuel+1) c (.node i (some cs))).1.id_scope = c.id_scope ∧
    (scanOne w (fuel+1) c (.node i (some cs))).1.label_scope =
      (scanList w fuel c cs).1.label_scope ∧
    (scanOne w (fuel+1) c (.node i (some cs))).2 = (scanList w fuel c cs).2 ∧
    (∀ (s : ScopeStack) (n : String) (d : DefId),
      scopeGet (scopeInsert s n d) n = some d) ∧
    (∀ (s : ScopeStack) (n m : String) (d : DefId), m ≠ n →
      scopeGet (scopeInsert s n d) m = scopeGet s m) := by
  obtain ⟨nm, ki, rng⟩ := i
  simp only at hki
  subst hki
  simp only [scanOne]
  cases hsl : scanList w fuel c cs with
  | mk c1 r =>
    refine ⟨?_, ?_, ?_, scopeGet_insert_self,
      fun s n m d h => scopeGet_insert_ne s n m d h⟩
    · trivial
    · trivial
    · trivial

/-- Witness for C7: a block defining `x` leaves the Value scope exactly as
it was before the block. -/
theorem C7_witness :
    (scanOne wExp 4 (cW none) (.node ⟨"", .Block, ⟨0, 0⟩⟩
      (some [vnode "x" 0 1]))).1.id_scope = (cW none).id_scope :=
  (C7_block_scoping wExp 3 (cW none) ⟨"", .Block, ⟨0, 0⟩⟩ [vnode "x" 0 1] rfl).1

/-- C10: whenever the hierarchy of an uncached, unvisited root file is
available, `get_def_use_inner` always constructs a table — its exports
computed from the Value scope as the scan left it, even if the scan
aborted partway — and installs it in the cache; it returns no table only
when the file was already in the visited set or its hierarchy was
unavailable. -/
theorem C10_table_always_constructed :
    (∀ (w : World) (fuel : Nat) (ctx : SearchCtx) (fid : TypstFileId)
        (hier : List LexicalHierarchy),
        alLookup ctx.cache fid = none → fid ∉ ctx.searched →
        alLookup w.files fid = some hier →
        ∃ info, (getDefUseInner w (fuel+1) ctx fid).2 = some info ∧
          alLookup (getDefUseInner w (fuel+1) ctx fid).1.cache fid = some info ∧
          info.exports_defs = scopeEntries
            (scanList w fuel
              (initColl fid { ctx with searched := fid :: ctx.searched })
              hier).1.id_scope) ∧
    (∀ (w : World) (fuel : Nat) (ctx : SearchCtx) (fid : TypstFileId),
        alLookup ctx.cache fid = none →
        (getDefUseInner w (fuel+1) ctx fid).2 = none →
        fid ∈ ctx.searched ∨ alLookup w.files fid = none) := by
  constructor
  · intro w fuel ctx fid hier h1 h2 h3
    simp only [getDefUseInner, h1, if_neg h2, h3]
    refine ⟨_, rfl, ?_, rfl⟩
    apply alLookup_cacheInstall_self
    have hstab := (searchedStable fuel).2.1 w
      (initColl fid { ctx with searched := fid :: ctx.searched }) hier
    exact hstab.2.2 fid (List.mem_cons_self _ _) h1
  · intro w fuel ctx fid h1 hres
    simp only [getDefUseInner, h1] at hres
    by_cases h2 : fid ∈ ctx.searched
    · exact .inl h2
    · rw [if_neg h2] at hres
      cases h3 : alLookup w.files fid with
      | none => exact .inr rfl
      | some hier =>
        rw [h3] at hres
        simp at hres

/-- Witness for C10: analyzing `a.typ` in the import example yields a
table, installed in the cache, with exports read off the final scope. -/
theorem C10_witness :
    ∃ info, (getDefUseInner wImp 10 emptyCtx fidA).2 = some info ∧
      alLookup (getDefUseInner wImp 10 emptyCtx fidA).1.cache fidA = some info ∧
      info.exports_defs = scopeEntries
        (scanList wImp 9
          (initColl fidA { emptyCtx with searched := fidA :: emptyCtx.searched })
          hierImpA).1.id_scope :=
  C10_table_always_constructed.1 wImp 9 emptyCtx fidA hierImpA (by decide)
    (by decide) rfl

/-- C1 (amended): on an import cycle, analysis terminates and produces a
table for the root — whenever the root is uncached, unvisited and has a
hierarchy, `get_def_use_inner` returns a table; an inner recursive call
on an already-visited, uncached file returns no table and leaves the
context unchanged; an identifier-import site never aborts the scan
(skipping the edge and continuing); but a star-import site whose inner
recursive call returns no table aborts the remainder of the current
file's scan (rather than continuing, as the claim stated — see the
counterexample). -/
theorem C1_cycle_guard :
    (∀ (w : World) (fuel : Nat) (ctx : SearchCtx) (fid : TypstFileId),
      alLookup ctx.cache fid = none → fid ∉ ctx.searched →
      (alLookup w.files fid).isSome = true →
      ((getDefUseInner w (fuel+1) ctx fid).2).isSome = true) ∧
    (∀ (w : World) (fuel : Nat) (ctx : SearchCtx) (fid : TypstFileId),
      alLookup ctx.cache fid = none → fid ∈ ctx.searched →
      getDefUseInner w (fuel+1) ctx fid = (ctx, none)) ∧
    (∀ (w : World) (fuel : Nat) (c : Collector) (i : LexicalInfo)
        (ch : Option (List LexicalHierarchy)), i.kind = .Mod .Ident →
      (scanOne w (fuel+1) c (.node i ch)).2 = some ()) ∧
    (∀ (w : World) (fuel : Nat) (c : Collector) (i : LexicalInfo)
        (ch : Option (List LexicalHierarchy)) (src : TypstFileId),
      i.kind = .Mod .Star → c.ext_src = some src →
      (getDefUseInner w fuel c.ctx src).2 = none →
      (scanOne w (fuel+1) c (.node i ch)).2 = none) := by
  refine ⟨?_, ?_, ?_, ?_⟩
  · intro w fuel ctx fid h1 h2 h3
    cases hh : alLookup w.files fid with
    | none => rw [hh] at h3; cases h3
    | some hier =>
      simp only [getDefUseInner, h1, if_neg h2, hh]
      rfl
  · intro w fuel ctx fid h1 h2
    simp only [getDefUseInner, h1, if_pos h2]
  · intro w fuel c i ch hki
    obtain ⟨nm, ki, rng⟩ := i
    simp only at hki
    subst hki
    simp only [scanOne]
    cases hsrc : c.ext_src with
    | none => rfl
    | some src =>
      simp only
      cases hres : getDefUseInner w fuel c.ctx src with
      | mk ctx2 r =>
        cases r with
        | none => rfl
        | some externalInfo =>
          simp only
          cases hexp : alLookup externalInfo.exports_defs nm <;> rfl
  · intro w fuel c i ch src hki hsrc hres
    obtain ⟨nm, ki, rng⟩ := i
    simp only at hki
    subst hki
    simp only [scanOne]
    rw [hsrc]
    simp only
    cases hres2 : getDefUseInner w fuel c.ctx src with
    | mk ctx2 r =>
      rw [hres2] at hres
      simp only at hres
      subst hres
      rfl

/-- Witness for C1: in the cyclic star-import world, analyzing `a.typ`
terminates with a table. -/
theorem C1_witness : ((getDefUseInner wCyc 10 emptyCtx fidA).2).isSome = true :=
  C1_cycle_guard.1 wCyc 9 emptyCtx fidA (by decide) (by decide) (by decide)

/-- Counterexample to C1 as stated: in `wCyc`, `b.typ` star-imports
`a.typ` (hitting the cycle guard) and then defines `y`; the claim says
the star-import site merely skips the edge and continues scanning the
rest of the file, which would put `y` into `b.typ`'s table.  Analyzing
`a.typ` terminates with a table, yet `b.typ`'s computed table has an
empty definition table: the star-import abort stopped the scan before
`y`. -/
theorem C1_counterexample :
    ((getDefUseInner wCyc 10 emptyCtx fidA).2).isSome = true ∧
    alLookup wCyc.files fidB =
      some [ .node ⟨"", .Mod (.Module (.Path "a")), ⟨0, 0⟩⟩
               (some [ .node ⟨"", .Mod .Star, ⟨1, 2⟩⟩ none ]),
             vnode "y" 10 11 ] ∧
    ((alLookup (getDefUseInner wCyc 10 emptyCtx fidA).1.cache fidB).getD
        emptyInfo).ident_defs = [] := by
  refine ⟨by decide, rfl, by decide⟩

/-- C2 (amended): whenever `get_def f r` returns `(d, def)`,
`get_def_by_id d` succeeds and returns the same payload together with the
owning file recorded in slot `d`; when the lookup went through the
`(f, r)` key directly, that owning file is `f` itself — under the
redefinition-table fallback it may instead be the imported file (see the
counterexample). -/
theorem C2_round_trip (info : DefUseInfo) (fid : TypstFileId) (r : IdentRef)
    (d : DefId) (dfn : IdentDef) (h : getDef info fid r = some (d, dfn)) :
    ∃ fid2, getDefById info d = some (fid2, dfn) ∧
      (∀ i, imFindIdx info.ident_defs (fid, r) = some i → i = d ∧ fid2 = fid) := by
  unfold getDef at h
  cases hfind : imFindIdx info.ident_defs (fid, r) with
  | some i =>
    rw [hfind] at h
    simp only at h
    cases hget : info.ident_defs.get? i with
    | none => rw [hget] at h; cases h
    | some kv =>
      rw [hget] at h
      simp only [Option.map_some', Option.some.injEq, Prod.mk.injEq] at h
      obtain ⟨h1, h2⟩ := h
      subst h1
      subst h2
      refine ⟨kv.1.1, ?_, ?_⟩
      · unfold getDefById
        rw [hget]
        rfl
      · intro j hj
        have h3 : i = j := Option.some.inj hj
        exact ⟨h3.symm,
          congrArg Prod.fst (imFindIdx_get_key info.ident_defs (fid, r) i hfind kv hget)⟩
  | none =>
    rw [hfind] at h
    simp only at h
    split at h
    · cases hred : alLookup info.ident_redefines r with
      | none => rw [hred] at h; cases h
      | some d0 =>
        rw [hred] at h
        simp only at h
        cases hget : info.ident_defs.get? d0 with
        | none => rw [hget] at h; cases h
        | some kv =>
          rw [hget] at h
          simp only [Option.some.injEq, Prod.mk.injEq] at h
          obtain ⟨h1, h2⟩ := h
          subst h1
          subst h2
          refine ⟨kv.1.1, ?_, ?_⟩
          · unfold getDefById
            rw [hget]
            rfl
          · intro j hj
            cases hj
    · cases h

/-- Witness for C2: the redefinition-fallback lookup in the import example
round-trips to slot 0's payload. -/
theorem C2_witness :
    ∃ fid2, getDefById impInfoA 0 = some (fid2, xDefV) ∧
      (∀ i, imFindIdx impInfoA.ident_defs (fidA, ⟨"x", ⟨5, 6⟩⟩) = some i →
        i = 0 ∧ fid2 = fidA) :=
  C2_round_trip impInfoA fidA ⟨"x", ⟨5, 6⟩⟩ 0 xDefV (by decide)

/-- Counterexample to C2 as stated: in the import example, `get_def`
resolves `x@5..6` in `a.typ` through the redefinition fallback to slot 0,
but `get_def_by_id 0` returns `b.typ` — the imported file — not `a.typ`,
so the returned pair is not `(f, def)` for the queried file `f`. -/
theorem C2_counterexample :
    (getDefUseInner wImp 10 emptyCtx fidA).2 = some impInfoA ∧
    getDef impInfoA fidA ⟨"x", ⟨5, 6⟩⟩ = some (0, xDefV) ∧
    getDefById impInfoA 0 = some (fidB, xDefV) ∧
    fidB ≠ fidA := by
  refine ⟨by decide, by decide, by decide, by decide⟩

/-- C5: star-import completeness — when a star-import node is scanned with
an active external source whose table was computed, every one of the
exported definitions (all of `exports_refs`, not only referenced ones) is
afterwards present in the importer's table under its original
(owning-file, IdentRef) key with the original definition range, and each
exported name resolves locally; a copy whose (file, IdentRef) key already
exists allocates no new slot. -/
theorem C5_star_import_completeness (w : World) (fuel : Nat) (c : Collector)
    (i : LexicalInfo) (ch : Option (List LexicalHierarchy)) (src : TypstFileId)
    (ctx2 : SearchCtx) (externalInfo : DefUseInfo)
    (hki : i.kind = .Mod .Star) (hsrc : c.ext_src = some src)
    (hres : getDefUseInner w fuel c.ctx src = (ctx2, some externalInfo)) :
    (∀ v, v ∈ externalInfo.exports_refs →
      ∀ kv, externalInfo.ident_defs.get? v = some kv →
        ((kv.1.1, (⟨kv.2.name, kv.2.range⟩ : IdentRef)) ∈
          (scanOne w (fuel+1) c (.node i ch)).1.info.ident_defs.map Prod.fst) ∧
        (scopeGet (scanOne w (fuel+1) c (.node i ch)).1.id_scope kv.2.name).isSome
          = true) ∧
    (∀ (c0 : Collector) (e : DefUseInfo) (v : DefId)
        (kv : (TypstFileId × IdentRef) × IdentDef),
      e.ident_defs.get? v = some kv →
      (kv.1.1, (⟨kv.2.name, kv.2.range⟩ : IdentRef)) ∈
        c0.info.ident_defs.map Prod.fst →
      (importFrom c0 e v).info.ident_defs.length = c0.info.ident_defs.length) := by
  constructor
  · intro v hv kv hkv
    obtain ⟨nm, ki, rng⟩ := i
    simp only at hki
    subst hki
    simp only [scanOne, hsrc, hres]
    exact importFromFold_mem externalInfo externalInfo.exports_refs _ v hv kv hkv
  · intro c0 e v kv h hmem
    obtain ⟨⟨extId, ref⟩, sym⟩ := kv
    simp only [importFrom, h]
    obtain ⟨idx, hidx⟩ := mem_keys_findIdx c0.info.ident_defs
      (extId, ⟨sym.name, sym.range⟩) hmem
    exact (imInsertFull_existing _ _ _ idx hidx).2

/-- Witness for C5: star-importing `b.typ` (exports x and y) makes `x`
present under its original key and locally resolvable. -/
theorem C5_witness :
    ((fidB, (⟨"x", ⟨0, 1⟩⟩ : IdentRef)) ∈
      (scanOne wExp 6 (cW (some fidB))
        (.node ⟨"", .Mod .Star, ⟨9, 9⟩⟩ none)).1.info.ident_defs.map Prod.fst) ∧
    (scopeGet (scanOne wExp 6 (cW (some fidB))
        (.node ⟨"", .Mod .Star, ⟨9, 9⟩⟩ none)).1.id_scope "x").isSome = true := by
  have h := (C5_star_import_completeness wExp 5 (cW (some fidB))
    ⟨"", .Mod .Star, ⟨9, 9⟩⟩ none fidB expCtx2 expInfoB rfl rfl (by decide)).1
    0 (by decide) ((fidB, ⟨"x", ⟨0, 1⟩⟩), ⟨"x", .Var .Variable, ⟨0, 1⟩⟩) (by decide)
  exact h

theorem insertDef_fst (c : Collector) (ns : Ns) (i : LexicalInfo) :
    (insertDef c ns i).1 = (imInsertFull c.info.ident_defs
      (c.current_id, ⟨i.name, i.range⟩) ⟨i.name, i.kind, i.range⟩).1 := by
  cases ns <;> rfl

theorem insertDef_defs (c : Collector) (ns : Ns) (i : LexicalInfo) :
    (insertDef c ns i).2.info.ident_defs = (imInsertFull c.info.ident_defs
      (c.current_id, ⟨i.name, i.range⟩) ⟨i.name, i.kind, i.range⟩).2 := by
  cases ns <;> rfl

theorem insertExtern_defs (c : Collector) (nm : String) (rng : Rng)
    (rid : Option DefId) :
    (insertExtern c nm rng rid).info.ident_defs = c.info.ident_defs := by
  unfold insertExtern
  split <;> rfl

/-- The failure arm of the identifier-import branch: the name is defined
locally under the current file's key, the external-reference table records
the attempt under `(source, name)` carrying the local DefId and the
occurrence range, and the search context is untouched by the
bookkeeping. -/
theorem identFail_book (c1 : Collector) (nm : String) (rng : Rng)
    (src : TypstFileId) (hsrc1 : c1.ext_src = some src) :
    getDef (insertExtern (insertDef c1 .Value ⟨nm, .Mod .Ident, rng⟩).2 nm rng
        (some (insertDef c1 .Value ⟨nm, .Mod .Ident, rng⟩).1)).info
      c1.current_id ⟨nm, rng⟩ =
      some ((insertDef c1 .Value ⟨nm, .Mod .Ident, rng⟩).1,
        ⟨nm, .Mod .Ident, rng⟩) ∧
    alLookup (insertExtern (insertDef c1 .Value ⟨nm, .Mod .Ident, rng⟩).2 nm rng
        (some (insertDef c1 .Value ⟨nm, .Mod .Ident, rng⟩).1)).info.external_refs
      (src, some nm) =
      some [(some (insertDef c1 .Value ⟨nm, .Mod .Ident, rng⟩).1, ⟨nm, rng⟩)] ∧
    getDefById (insertExtern (insertDef c1 .Value ⟨nm, .Mod .Ident, rng⟩).2 nm rng
        (some (insertDef c1 .Value ⟨nm, .Mod .Ident, rng⟩).1)).info
      (insertDef c1 .Value ⟨nm, .Mod .Ident, rng⟩).1 =
      some (c1.current_id, ⟨nm, .Mod .Ident, rng⟩) ∧
    (insertExtern (insertDef c1 .Value ⟨nm, .Mod .Ident, rng⟩).2 nm rng
        (some (insertDef c1 .Value ⟨nm, .Mod .Ident, rng⟩).1)).ctx = c1.ctx := by
  have hlook := imInsertFull_lookup c1.info.ident_defs
    (c1.current_id, ⟨nm, rng⟩) ⟨nm, .Mod .Ident, rng⟩
  have hext : (insertDef c1 .Value ⟨nm, .Mod .Ident, rng⟩).2.ext_src = some src := by
    rw [(insertDef_unchanged c1 .Value ⟨nm, .Mod .Ident, rng⟩).2.2.1, hsrc1]
  refine ⟨?_, ?_, ?_, ?_⟩
  · unfold getDef
    rw [insertExtern_defs, insertDef_defs, insertDef_fst]
    rw [hlook.1]
    simp only [hlook.2, Option.map_some']
  · simp only [insertExtern, hext]
    exact alLookup_alInsert_self _ _ _
  · unfold getDefById
    rw [insertExtern_defs, insertDef_defs, insertDef_fst]
    rw [hlook.2]
    rfl
  · rw [insertExtern_ctx, (insertDef_unchanged c1 .Value ⟨nm, .Mod .Ident, rng⟩).1]

/-- C6: unresolved identifier import — when `import nm` is scanned with an
active external source whose table is unavailable or does not export the
name, the name is still defined locally under the current file's key, the
external-reference table records an entry for `(source, nm)` carrying
that local DefId and the occurrence's source range, the scan continues,
and the search context (holding every previously computed table,
including the source's) is exactly what the inner recursive lookup left
behind — the bookkeeping writes only to the importer's own table. -/
theorem C6_unresolved_import_bookkeeping (w : World) (fuel : Nat) (c : Collector)
    (nm : String) (rng : Rng) (ch : Option (List LexicalHierarchy))
    (src : TypstFileId) (hsrc : c.ext_src = some src)
    (hfail : (getDefUseInner w fuel c.ctx src).2 = none ∨
      (∀ ei, (getDefUseInner w fuel c.ctx src).2 = some ei →
        alLookup ei.exports_defs nm = none)) :
    ∃ d, getDef (scanOne w (fuel+1) c (.node ⟨nm, .Mod .Ident, rng⟩ ch)).1.info
          c.current_id ⟨nm, rng⟩ = some (d, ⟨nm, .Mod .Ident, rng⟩) ∧
      alLookup (scanOne w (fuel+1) c
          (.node ⟨nm, .Mod .Ident, rng⟩ ch)).1.info.external_refs
          (src, some nm) = some [(some d, ⟨nm, rng⟩)] ∧
      getDefById (scanOne w (fuel+1) c (.node ⟨nm, .Mod .Ident, rng⟩ ch)).1.info d =
          some (c.current_id, ⟨nm, .Mod .Ident, rng⟩) ∧
      (scanOne w (fuel+1) c (.node ⟨nm, .Mod .Ident, rng⟩ ch)).1.ctx =
          (getDefUseInner w fuel c.ctx src).1 ∧
      (scanOne w (fuel+1) c (.node ⟨nm, .Mod .Ident, rng⟩ ch)).2 = some () := by
  cases hres : getDefUseInner w fuel c.ctx src with
  | mk ctx2 r =>
    cases r with
    | none =>
      simp only [scanOne, hsrc, hres]
      set c1 : Collector := { info := c.info, label_scope := c.label_scope, id_scope := c.id_scope, current_id := c.current_id, ext_src := some src, ctx := ctx2 } with hc1def
      obtain ⟨h1, h2, h3, h4⟩ := identFail_book c1 nm rng src rfl
      exact ⟨_, h1, h2, h3, h4, trivial⟩
    | some ei =>
      have hlook : alLookup ei.exports_defs nm = none := by
        rcases hfail with hf | hf
        · rw [hres] at hf
          simp at hf
        · exact hf ei (by rw [hres])
      simp only [scanOne, hsrc, hres, hlook]
      set c1 : Collector := { info := c.info, label_scope := c.label_scope, id_scope := c.id_scope, current_id := c.current_id, ext_src := some src, ctx := ctx2 } with hc1def
      obtain ⟨h1, h2, h3, h4⟩ := identFail_book c1 nm rng src rfl
      exact ⟨_, h1, h2, h3, h4, trivial⟩

/-- Witness for C6: `import z from "b"` where `b.typ` exports only x and
y: z is defined locally in `a.typ`'s table, the attempt is recorded under
`(b.typ, z)` with the local DefId and range, and the context equals the
inner lookup's result. -/
theorem C6_witness :
    ∃ d, getDef (scanOne wExp 6 (cW (some fidB))
          (.node ⟨"z", .Mod .Ident, ⟨7, 8⟩⟩ none)).1.info
          (cW (some fidB)).current_id ⟨"z", ⟨7, 8⟩⟩ =
          some (d, ⟨"z", .Mod .Ident, ⟨7, 8⟩⟩) ∧
      alLookup (scanOne wExp 6 (cW (some fidB))
          (.node ⟨"z", .Mod .Ident, ⟨7, 8⟩⟩ none)).1.info.external_refs
          (fidB, some "z") = some [(some d, ⟨"z", ⟨7, 8⟩⟩)] ∧
      getDefById (scanOne wExp 6 (cW (some fidB))
          (.node ⟨"z", .Mod .Ident, ⟨7, 8⟩⟩ none)).1.info d =
          some ((cW (some fidB)).current_id, ⟨"z", .Mod .Ident, ⟨7, 8⟩⟩) ∧
      (scanOne wExp 6 (cW (some fidB))
          (.node ⟨"z", .Mod .Ident, ⟨7, 8⟩⟩ none)).1.ctx =
          (getDefUseInner wExp 5 (cW (some fidB)).ctx fidB).1 ∧
      (scanOne wExp 6 (cW (some fidB)) (.node ⟨"z", .Mod .Ident, ⟨7, 8⟩⟩ none)).2 =
          some () :=
  C6_unresolved_import_bookkeeping wExp 5 (cW (some fidB)) "z" ⟨7, 8⟩ none fidB rfl
    (.inr (fun ei hei => by
      have : ei = expInfoB := by
        have h2 : (getDefUseInner wExp 5 (cW (some fidB)).ctx fidB).2 = some expInfoB := by
          decide
        rw [hei] at h2
        exact Option.some.inj h2
      rw [this]
      decide))

/-- C8 (amended): the serializer emits exactly one entry per
definition-table slot, in table order, each keyed by
`"<name>@<range>@<canonical project-relative path>"` (the `IdentRef`
rendering followed by the path — not `"<range>@<path>"` as the claim
stated, see the counterexample), valued with the definition payload and
that slot's references sorted by name then range start; a trailing
literal `"<nil>"` entry holding all sorted unresolved references follows
and is omitted exactly when the undefined-reference list is empty.  The
serializer is a pure function of the table, so serializing the same
table always yields identical output. -/
theorem C8_serializer_format (info : DefUseInfo) :
    ((serialize info).length =
      info.ident_defs.length + (if info.undefined_refs = [] then 0 else 1)) ∧
    (∀ k kv, info.ident_defs.get? k = some kv →
      (serialize info).get? k =
        some (serKey kv.1, { defn := kv.2, refs := sortRefs (getRefs info k) })) ∧
    (info.undefined_refs ≠ [] →
      (serialize info).get? info.ident_defs.length =
        some ("<nil>", { defn := nilDef, refs := sortRefs info.undefined_refs })) ∧
    (∀ k ent, (serialize info).get? k = some ent → ent.2.refs.Pairwise identLe) :=
  ⟨serialize_length info, serialize_get_main info, serialize_get_nil info,
    serialize_refs_sorted info⟩

/-- Witness for C8: the one-slot example table serializes to an entry at
index 0 with the `serKey` key and sorted references. -/
theorem C8_witness :
    (serialize serExInfo).get? 0 =
      some (serKey (fidA, ⟨"x", ⟨1, 2⟩⟩),
        { defn := ⟨"x", .Var .Variable, ⟨1, 2⟩⟩,
          refs := sortRefs (getRefs serExInfo 0) }) :=
  (C8_serializer_format serExInfo).2.1 0
    ((fidA, ⟨"x", ⟨1, 2⟩⟩), ⟨"x", .Var .Variable, ⟨1, 2⟩⟩) (by decide)

/-- Counterexample to C8 as stated: the claim says the entry key is
`"<range>@<path>"`; for the one-slot example table the emitted key is
`"x@1..2@a.typ"`, which also contains the definition's name and differs
from the claimed `"1..2@a.typ"`. -/
theorem C8_counterexample :
    (serialize serExInfo).map Prod.fst = ["x@1..2@a.typ"] ∧
    rngRepr ⟨1, 2⟩ ++ "@" ++ fidA.path = "1..2@a.typ" ∧
    ("x@1..2@a.typ" : String) ≠ "1..2@a.typ" := by
  refine ⟨by decide, by decide, by decide⟩

end DefUse
